import Mathlib

/-!
# Proof-of-stake kernel

A shallow embedding of `src/pos_kernel.cpp` (stake modifier computation, block
selection, kernel hash check and search, block-level proof-of-stake check),
followed by theorems about it.

Conventions of the embedding.

* Machine integers are `Nat` (unsigned) or `Int` (signed); a conversion to an
  unsigned 32- or 64-bit type is written `% 2 ^ 32`, `% 2 ^ 64` where the
  source performs one.
* A `uint256` is the natural number whose little-endian bytes are the blob's
  bytes in internal order, so that `UintToArith256` is the identity and an
  `arith_uint256` is a natural number below `2 ^ 256`.
* A `CDataStream` is the list of bytes written so far.
* A `const CBlockIndex*` is the list of index entries reached from it through
  `pprev`, nearest first: the null pointer is `[]` and `p->pprev` is the tail.
  A reference `const CBlockIndex&` is a pair of the entry and its `pprev`.
* In/out parameters are returned next to the boolean result.
* `error(...)` logs and returns `false`; logging is not modelled.
* Everything the kernel consumes from other files (hash function, compact
  expansion, network constants, block index, transaction lookup, script
  solver, signature check) is a field of `Env`.
-/

namespace PosKernel

/-! ## Integers and serialization -/

/-- Conversion of a signed value to `unsigned int`. -/
def toU32 (z : Int) : Nat := (z % 2 ^ 32).toNat

/-- Conversion of a signed value to `uint64_t`. -/
def toU64 (z : Int) : Nat := (z % 2 ^ 64).toNat

/-- The first `n` little-endian bytes of `v`: what `ss << v` appends for an
unsigned integer of `n` bytes, and for a `uint256` (`n = 32`, internal order). -/
def leBytes : Nat → Nat → List Nat
  | 0, _ => []
  | n + 1, v => v % 256 :: leBytes n (v / 256)

/-- Modelled from the spec: the product of two `arith_uint256` values, whose
implementation (`arith_uint256.cpp`) is not among the sources. The spec says
that the overflowing product saturates to `2 ^ 256 - 1`. -/
def arith_uint256_mul (a b : Nat) : Nat :=
  if a * b < 2 ^ 256 then a * b else 2 ^ 256 - 1

/-! ## Data model -/

/-- The fields of a block index entry that the kernel reads. `hashBlock` is
`GetBlockHash()`, `nTime` the 32-bit block time.
Modelled from the spec: `GetStakeEntropyBit()` is not among the sources; the
data model of the spec makes it a single bit. -/
structure CBlockIndex where
  nHeight : Int
  nTime : Nat
  hashBlock : Nat
  nStakeModifier : Nat
  fGeneratedStakeModifier : Bool
  fProofOfStake : Bool
  fStakeEntropyBit : Bool
deriving DecidableEq

/-- An outpoint: transaction hash and output index. -/
structure COutPoint where
  hash : Nat
  n : Nat
deriving DecidableEq

/-- A transaction output: amount (`CAmount`, signed 64-bit) and script bytes. -/
structure CTxOut where
  nValue : Int
  scriptPubKey : List Nat
deriving DecidableEq

/-- A transaction, reduced to its outputs. -/
structure CTransaction where
  vout : List CTxOut
deriving DecidableEq

/-- The fields of a block header that `CheckProofOfStake` reads. -/
structure CBlockHeader where
  nBits : Nat
  nTime : Nat
  posBlockSig : List Nat
  StakeInput : COutPoint
  hashProofOfStake : Nat
  nStakeModifier : Nat
deriving DecidableEq

/-- Script shapes reported by the script solver. -/
inductive txnouttype where
  | TX_NONSTANDARD
  | TX_PUBKEY
  | TX_PUBKEYHASH
  | TX_SCRIPTHASH
  | TX_MULTISIG
  | TX_NULL_DATA
deriving DecidableEq

/-- What the kernel consumes from the rest of the node.

* `MODIFIER_INTERVAL`, `MODIFIER_INTERVAL_TESTNET` (unsigned int),
  `MODIFIER_INTERVAL_RATIO` (int), `MIN_STAKE_AMOUNT` (`CAmount`): constants of
  `pos_kernel.h`, whose values are not among the sources.
* `MinStakeAge`: `Params().MinStakeAge()`.
  Modelled from the spec: its return type is not among the sources; it is
  taken to be a signed 64-bit number of seconds, so that
  `nTimeBlockFrom + min_age` is the sum of the spec, without wrap-around.
* `Hash`: double SHA-256 of a byte range, as a `uint256`.
* `SetCompact`: the value of an `arith_uint256` after `SetCompact(nBits)`.
* `uint256_lt`: `operator<` of `uint256`, used by `std::sort`.
* `mapBlockIndex`: the block index, from a block hash to a non-null entry
  pointer (the entry and its `pprev` chain).
* `GetTransaction`: transaction lookup, giving the transaction and the hash
  of its block.
* `Solver`, `CKeyID_uint160`, `CPubKey_GetID`, `CheckBlockSignature`: script
  solver, the two key-id derivations and the block signature check. -/
structure Env where
  fTestNet : Bool
  MODIFIER_INTERVAL : Nat
  MODIFIER_INTERVAL_TESTNET : Nat
  MODIFIER_INTERVAL_RATIO : Int
  MIN_STAKE_AMOUNT : Int
  MinStakeAge : Int
  Hash : List Nat → Nat
  SetCompact : Nat → Nat
  uint256_lt : Nat → Nat → Bool
  mapBlockIndex : Nat → Option (CBlockIndex × List CBlockIndex)
  GetTransaction : Nat → Option (CTransaction × Nat)
  Solver : List Nat → Option (txnouttype × List (List Nat))
  CKeyID_uint160 : List Nat → Nat
  CPubKey_GetID : List Nat → Nat
  CheckBlockSignature : CBlockHeader → Nat → Bool

/-- The block time as `int64_t`. -/
def GetBlockTime (b : CBlockIndex) : Int := (b.nTime : Int)

/-! ## Interval arithmetic -/

/-- The modifier interval of the network, an `unsigned int`. -/
def getIntervalVersion (env : Env) : Nat :=
  if env.fTestNet then env.MODIFIER_INTERVAL_TESTNET % 2 ^ 32
  else env.MODIFIER_INTERVAL % 2 ^ 32

/-- Length of selection interval section `nSection`. The product
`getIntervalVersion(fTestNet) * 63` is an `unsigned int` product; the divisor is
an `int` converted to `unsigned int` by the usual arithmetic conversions; the
quotient is widened to `int64_t`. The `assert` on `nSection` holds at every
call of this file and is not modelled. -/
def GetStakeModifierSelectionIntervalSection (env : Env) (nSection : Int) : Int :=
  (((getIntervalVersion env * 63) % 2 ^ 32 /
      toU32 (63 + (63 - nSection) * ( Env.MODIFIER_INTERVAL_RATIO env - 1)) : Nat) : Int)

/-- Sum of the 64 section lengths. -/
def GetStakeModifierSelectionInterval (env : Env) : Int :=
  (List.range 64).foldl
    (fun nSelectionInterval nSection =>
      nSelectionInterval + GetStakeModifierSelectionIntervalSection env (nSection : Int))
    0

/-! ## Stake modifier -/

/-- The last generated stake modifier and its block time, walking back from
`pindex`; `none` is the `false` result (the out parameters are then not
written). -/
def GetLastStakeModifier : List CBlockIndex → Option (Nat × Int)
  | [] => none
  | [b] =>
    if b.fGeneratedStakeModifier then some (b.nStakeModifier, GetBlockTime b) else none
  | b :: p :: rest =>
    if b.fGeneratedStakeModifier then some (b.nStakeModifier, GetBlockTime b)
    else GetLastStakeModifier (p :: rest)

/-- The membership test `mapSelectedBlocks.count(hash) > 0`. -/
def mapCount (mapSelectedBlocks : List (Nat × CBlockIndex)) (hash : Nat) : Bool :=
  mapSelectedBlocks.any (fun kv => kv.1 == hash)

/-- The insertion `mapSelectedBlocks.insert(make_pair(hash, pindex))`: a key
that is present keeps its entry. -/
def mapInsert (mapSelectedBlocks : List (Nat × CBlockIndex)) (hash : Nat)
    (pindex : CBlockIndex) : List (Nat × CBlockIndex) :=
  if mapCount mapSelectedBlocks hash then mapSelectedBlocks
  else mapSelectedBlocks ++ [(hash, pindex)]

/-- The selection hash of a candidate: `Hash(hashProof || nStakeModifierPrev)`,
shifted right by 32 bits for a proof-of-stake block. -/
def selectionHash (env : Env) (pindex : CBlockIndex) (nStakeModifierPrev : Nat) : Nat :=
  let hashSelection := env.Hash (leBytes 32 pindex.hashBlock ++ leBytes 8 nStakeModifierPrev)
  if pindex.fProofOfStake then hashSelection >>> 32 else hashSelection

/-- The loop of `SelectBlockFromCandidates` over the remaining candidates, from
the state `(fSelected, hashBest, *pindexSelected)`. The result is the returned
boolean and the final `*pindexSelected`. -/
def selectLoop (env : Env) (mapSelectedBlocks : List (Nat × CBlockIndex))
    (nSelectionIntervalStop : Int) (nStakeModifierPrev : Nat) :
    List (Int × Nat) → Bool → Nat → Option CBlockIndex → Bool × Option CBlockIndex
  | [], fSelected, _, pindexSelected => (fSelected, pindexSelected)
  | item :: rest, fSelected, hashBest, pindexSelected =>
    match env.mapBlockIndex item.2 with
    | none => (false, pindexSelected)
    | some (pindex, _) =>
      if fSelected && decide (GetBlockTime pindex > nSelectionIntervalStop) then
        (fSelected, pindexSelected)
      else if mapCount mapSelectedBlocks pindex.hashBlock then
        selectLoop env mapSelectedBlocks nSelectionIntervalStop nStakeModifierPrev
          rest fSelected hashBest pindexSelected
      else
        let hashSelection := selectionHash env pindex nStakeModifierPrev
        if fSelected && decide (hashSelection < hashBest) then
          selectLoop env mapSelectedBlocks nSelectionIntervalStop nStakeModifierPrev
            rest fSelected hashSelection (some pindex)
        else if !fSelected then
          selectLoop env mapSelectedBlocks nSelectionIntervalStop nStakeModifierPrev
            rest true hashSelection (some pindex)
        else
          selectLoop env mapSelectedBlocks nSelectionIntervalStop nStakeModifierPrev
            rest fSelected hashBest pindexSelected

/-- Select a block from the candidates, excluding the already selected ones. -/
def SelectBlockFromCandidates (env : Env) (vSortedByTimestamp : List (Int × Nat))
    (mapSelectedBlocks : List (Nat × CBlockIndex)) (nSelectionIntervalStop : Int)
    (nStakeModifierPrev : Nat) : Bool × Option CBlockIndex :=
  selectLoop env mapSelectedBlocks nSelectionIntervalStop nStakeModifierPrev
    vSortedByTimestamp false 0 none

/-- The comparison `operator<` of `pair<int64_t, uint256>`. -/
def pairLt (env : Env) (a b : Int × Nat) : Bool :=
  decide (a.1 < b.1) || (!decide (b.1 < a.1) && env.uint256_lt a.2 b.2)

/-- The backward walk that collects `(time, hash)` while the block time is at
least `nSelectionIntervalStart`. -/
def gatherCandidates (nSelectionIntervalStart : Int) : List CBlockIndex → List (Int × Nat)
  | [] => []
  | pindex :: pprev =>
    if GetBlockTime pindex ≥ nSelectionIntervalStart then
      (GetBlockTime pindex, pindex.hashBlock) :: gatherCandidates nSelectionIntervalStart pprev
    else []

/-- The candidate list after `sort` and `reverse`. -/
def sortedCandidates (env : Env) (nSelectionIntervalStart : Int)
    (pindexPrev : List CBlockIndex) : List (Int × Nat) :=
  (List.insertionSort (fun a b => pairLt env b a = false)
    (gatherCandidates nSelectionIntervalStart pindexPrev)).reverse

/-- The selection rounds `nRound, nRound + 1, ...` of `ComputeNextStakeModifier`,
`k` of them, from the state `(nSelectionIntervalStop, nStakeModifierNew,
mapSelectedBlocks)`. The result is the returned boolean and the final value of
the out parameter, which on failure still holds the previous modifier. -/
def selectionRounds (env : Env) (vSortedByTimestamp : List (Int × Nat))
    (nStakeModifier : Nat) :
    Nat → Nat → Int → Nat → List (Nat × CBlockIndex) → Bool × Nat
  | 0, _, _, nStakeModifierNew, _ => (true, nStakeModifierNew)
  | k + 1, nRound, nSelectionIntervalStop, nStakeModifierNew, mapSelectedBlocks =>
    let nStop := nSelectionIntervalStop +
      GetStakeModifierSelectionIntervalSection env (nRound : Int)
    match SelectBlockFromCandidates env vSortedByTimestamp mapSelectedBlocks nStop
        nStakeModifier with
    | (true, some pindex) =>
      selectionRounds env vSortedByTimestamp nStakeModifier k (nRound + 1) nStop
        (nStakeModifierNew ||| ((pindex.fStakeEntropyBit.toNat <<< nRound) % 2 ^ 64))
        (mapInsert mapSelectedBlocks pindex.hashBlock pindex)
    | _ => (false, nStakeModifier)

/-- The start of the selection window for `pindexPrev`. -/
def selectionIntervalStart (env : Env) (pindexPrev : CBlockIndex) : Int :=
  Int.tdiv (GetBlockTime pindexPrev) (getIntervalVersion env) * (getIntervalVersion env)
    - GetStakeModifierSelectionInterval env

/-- The next stake modifier: the returned boolean and the out parameter. -/
def ComputeNextStakeModifier (env : Env) : List CBlockIndex → Bool × Nat
  | [] => (true, 0)
  | pindexPrev :: pprev =>
    if pindexPrev.nHeight = 0 then (true, 0x1234567887654321)
    else
      match GetLastStakeModifier (pindexPrev :: pprev) with
      | none => (false, 0)
      | some (nStakeModifier, nModifierTime) =>
        if Int.tdiv nModifierTime (getIntervalVersion env)
            ≥ Int.tdiv (GetBlockTime pindexPrev) (getIntervalVersion env) then
          (true, nStakeModifier)
        else
          let vSortedByTimestamp :=
            sortedCandidates env (selectionIntervalStart env pindexPrev) (pindexPrev :: pprev)
          selectionRounds env vSortedByTimestamp nStakeModifier
            (min 64 vSortedByTimestamp.length) 0 (selectionIntervalStart env pindexPrev) 0 []

/-! ## Kernel hash -/

/-- The kernel hash: the stream `ss`, passed by value, is extended by the four
fields and hashed. -/
def stakeHash (env : Env) (nTimeTx : Nat) (ss : List Nat) (prevoutIndex prevoutHash
    nTimeBlockFrom : Nat) : Nat :=
  env.Hash (ss ++ leBytes 4 nTimeBlockFrom ++ leBytes 4 prevoutIndex
    ++ leBytes 32 prevoutHash ++ leBytes 4 nTimeTx)

/-- The result of `CheckStakeKernelHash`: the returned boolean and the three
in/out parameters. -/
structure KernelOut where
  ret : Bool
  nTimeTx : Nat
  hashProofOfStake : Nat
  nStakeModifier : Nat
deriving DecidableEq

/-- The search loop of `CheckStakeKernelHash`: `k` more iterations from counter
`i`, with `hashProofOfStake` the hash written so far. The result is
`(fSuccess, nTimeTx, hashProofOfStake)`. -/
def searchLoop (env : Env) (ss : List Nat) (prevout : COutPoint)
    (nTimeBlockFrom bnTarget nTimeTx : Nat) : Nat → Nat → Nat → Bool × Nat × Nat
  | 0, _, hashProofOfStake => (false, nTimeTx, hashProofOfStake)
  | k + 1, i, _ =>
    let nTryTime := (nTimeTx + i) % 2 ^ 32
    let hashProof := stakeHash env nTryTime ss prevout.n prevout.hash nTimeBlockFrom
    if hashProof ≥ bnTarget then
      searchLoop env ss prevout nTimeBlockFrom bnTarget nTimeTx k (i + 1) hashProof
    else (true, nTryTime, hashProof)

/-- The stake target `(arith_uint256(nValueIn) / 100) * bnTargetPerCoinDay`. -/
def stakeTarget (env : Env) (nValueIn : Int) (nBits : Nat) : Nat :=
  arith_uint256_mul (toU64 nValueIn / 100) (env.SetCompact nBits)

/-- The value `txPrev.vout[prevout.n].nValue`. Reading past the end of `vout` is
undefined in the source; the model then reads an empty output of value 0. -/
def stakedOutput (txPrev : CTransaction) (prevout : COutPoint) : CTxOut :=
  txPrev.vout.getD prevout.n ⟨0, []⟩

/-- Check of a kernel hash (`fCheck = true`) or search for one over the drift
window (`fCheck = false`). -/
def CheckStakeKernelHash (env : Env) (nBits : Nat)
    (blockFrom : CBlockIndex × List CBlockIndex) (txPrev : CTransaction)
    (prevout : COutPoint) (nTimeTx nHashDrift : Nat) (fCheck : Bool)
    (hashProofOfStake nStakeModifier : Nat) : KernelOut :=
  let nValueIn := (stakedOutput txPrev prevout).nValue
  let nTimeBlockFrom := toU32 (GetBlockTime blockFrom.1)
  let min_age := env.MinStakeAge
  if nValueIn < env.MIN_STAKE_AMOUNT then
    ⟨false, nTimeTx, hashProofOfStake, nStakeModifier⟩
  else if nTimeTx < nTimeBlockFrom then
    ⟨false, nTimeTx, hashProofOfStake, nStakeModifier⟩
  else if (nTimeBlockFrom : Int) + min_age > (nTimeTx : Int) then
    ⟨false, nTimeTx, hashProofOfStake, nStakeModifier⟩
  else
    let bnTarget := stakeTarget env nValueIn nBits
    match ComputeNextStakeModifier env (blockFrom.1 :: blockFrom.2) with
    | (false, _) => ⟨false, nTimeTx, hashProofOfStake, nStakeModifier⟩
    | (true, nRequiredStakeModifier) =>
      if fCheck then
        if nStakeModifier ≠ nRequiredStakeModifier then
          ⟨false, nTimeTx, hashProofOfStake, nStakeModifier⟩
        else
          let requiredHashProofOfStake :=
            stakeHash env nTimeTx (leBytes 8 nStakeModifier) prevout.n prevout.hash
              nTimeBlockFrom
          if requiredHashProofOfStake ≠ hashProofOfStake then
            ⟨false, nTimeTx, hashProofOfStake, nStakeModifier⟩
          else
            ⟨decide (hashProofOfStake < bnTarget), nTimeTx, hashProofOfStake, nStakeModifier⟩
      else
        let r := searchLoop env (leBytes 8 nRequiredStakeModifier) prevout nTimeBlockFrom
          bnTarget nTimeTx nHashDrift 0 hashProofOfStake
        ⟨r.1, r.2.1, r.2.2, nRequiredStakeModifier⟩

/-! ## Block-level check -/

/-- The key id derived from the solved script, `none` for an unsupported shape. -/
def stakeKeyId (env : Env) (whichType : txnouttype) (vSolutions : List (List Nat)) :
    Option Nat :=
  if whichType = txnouttype.TX_PUBKEYHASH then some (env.CKeyID_uint160 (vSolutions.headD []))
  else if whichType = txnouttype.TX_PUBKEY then some (env.CPubKey_GetID (vSolutions.headD []))
  else none

/-- Check kernel hash target and coinstake signature. -/
def CheckProofOfStake (env : Env) (block : CBlockHeader) : Bool :=
  if block.posBlockSig.isEmpty then false
  else
    let prevout := block.StakeInput
    match env.GetTransaction prevout.hash with
    | none => false
    | some (txinPrev, txinHashBlock) =>
      match env.mapBlockIndex txinHashBlock with
      | none => false
      | some pindex_tx =>
        match env.Solver (stakedOutput txinPrev prevout).scriptPubKey with
        | none => false
        | some (whichType, vSolutions) =>
          match stakeKeyId env whichType vSolutions with
          | none => false
          | some key_id =>
            if !env.CheckBlockSignature block key_id then false
            else
              (CheckStakeKernelHash env block.nBits pindex_tx txinPrev prevout
                block.nTime 0 true block.hashProofOfStake block.nStakeModifier).ret

/-! ## Specification-side notions used by the theorems -/

/-- The 52-byte kernel input of the spec: modifier (8 bytes, little-endian), time
of the block holding the staked output (4), outpoint index (4), outpoint hash
(32, internal order), try time (4). -/
def kernelInputSpec (M nTimeBlockFrom prevoutIndex prevoutHash nTryTime : Nat) : List Nat :=
  leBytes 8 M ++ leBytes 4 nTimeBlockFrom ++ leBytes 4 prevoutIndex
    ++ leBytes 32 prevoutHash ++ leBytes 4 nTryTime

/-- The kernel hash of the spec: the hash of the 52-byte kernel input. -/
def kernelHashSpec (env : Env) (M nTimeBlockFrom : Nat) (prevout : COutPoint)
    (nTryTime : Nat) : Nat :=
  env.Hash (kernelInputSpec M nTimeBlockFrom prevout.n prevout.hash nTryTime)

/-- The candidates a traversal of the selector examines (hashes and compares):
those met before the traversal stops that are not already selected. `seen`
tells whether an examined candidate precedes the list. -/
def examined (env : Env) (mapSelectedBlocks : List (Nat × CBlockIndex))
    (nSelectionIntervalStop : Int) : List (Int × Nat) → Bool → List CBlockIndex
  | [], _ => []
  | item :: rest, seen =>
    match env.mapBlockIndex item.2 with
    | none => []
    | some (pindex, _) =>
      if seen && decide (GetBlockTime pindex > nSelectionIntervalStop) then []
      else if mapCount mapSelectedBlocks pindex.hashBlock then
        examined env mapSelectedBlocks nSelectionIntervalStop rest seen
      else pindex :: examined env mapSelectedBlocks nSelectionIntervalStop rest true

/-- The blocks `s` are the ones selected in the rounds `nRound, nRound + 1, ...`:
each is the selector's result for the stop time and selected map of its round. -/
def roundsSelect (env : Env) (vSortedByTimestamp : List (Int × Nat)) (nStakeModifier : Nat) :
    List CBlockIndex → Nat → Int → List (Nat × CBlockIndex) → Prop
  | [], _, _, _ => True
  | s :: rest, nRound, nSelectionIntervalStop, mapSelectedBlocks =>
    SelectBlockFromCandidates env vSortedByTimestamp mapSelectedBlocks
        (nSelectionIntervalStop + GetStakeModifierSelectionIntervalSection env (nRound : Int))
        nStakeModifier = (true, some s)
      ∧ roundsSelect env vSortedByTimestamp nStakeModifier rest (nRound + 1)
          (nSelectionIntervalStop + GetStakeModifierSelectionIntervalSection env (nRound : Int))
          (mapInsert mapSelectedBlocks s.hashBlock s)

/-- The accumulator of the rounds after the entropy bits of the blocks `s` are
written at the positions `nRound, nRound + 1, ...`. -/
def writeBits : Nat → Nat → List CBlockIndex → Nat
  | nStakeModifierNew, _, [] => nStakeModifierNew
  | nStakeModifierNew, nRound, s :: rest =>
    writeBits (nStakeModifierNew ||| ((s.fStakeEntropyBit.toNat <<< nRound) % 2 ^ 64))
      (nRound + 1) rest

/-- Entropy bit of the block selected in round `r`, and `false` past the last round. -/
def entropyBitAt (s : List CBlockIndex) (r : Nat) : Bool :=
  (s.map (fun b => b.fStakeEntropyBit)).getD r false

/-- The candidate is not in the already-selected set. -/
def notSelected (mapSelectedBlocks : List (Nat × CBlockIndex)) (c : CBlockIndex) : Bool :=
  !mapCount mapSelectedBlocks c.hashBlock

/-- The stop condition at index `j` of the candidates `cs` for a traversal that
starts with `seen` telling whether a not-already-selected candidate was met
before `cs`: such a candidate was met before `j`, and the time of `c_j` is later
than the stop time. -/
def stopsAtFrom (seen : Bool) (mapSelectedBlocks : List (Nat × CBlockIndex))
    (nSelectionIntervalStop : Int) (cs : List CBlockIndex) (j : Nat) : Prop :=
  ∃ c, cs[j]? = some c ∧ nSelectionIntervalStop < GetBlockTime c
    ∧ (seen = true ∨ ∃ q ∈ cs.take j, notSelected mapSelectedBlocks q = true)

/-- The stop condition of the spec at index `j` of the candidates `cs`: some
not-already-selected candidate occurs before `j`, and the time of `c_j` is
later than the stop time. -/
def stopsAt (mapSelectedBlocks : List (Nat × CBlockIndex)) (nSelectionIntervalStop : Int)
    (cs : List CBlockIndex) (j : Nat) : Prop :=
  ∃ c, cs[j]? = some c ∧ nSelectionIntervalStop < GetBlockTime c
    ∧ ∃ q ∈ cs.take j, notSelected mapSelectedBlocks q = true

/-- The selection hash of the spec for the candidate `c`: the hash of the 32 bytes of
the block hash followed by the 8 little-endian bytes of the previous modifier, read
as a 256-bit number, and divided by `2 ^ 32` (shifted right by 32 bits) when `c` is
a proof-of-stake block. -/
def selectionHashSpec (env : Env) (c : CBlockIndex) (nStakeModifierPrev : Nat) : Nat :=
  if c.fProofOfStake = true then
    env.Hash (leBytes 32 c.hashBlock ++ leBytes 8 nStakeModifierPrev) / 2 ^ 32
  else env.Hash (leBytes 32 c.hashBlock ++ leBytes 8 nStakeModifierPrev)

/-- The block the spec selects among the candidates `cs` with stop index `j`:
the not-already-selected candidate before `j` of smallest selection hash of the
spec, the earliest one among equal hashes; `none` when there is no such candidate. -/
def selectSpec (env : Env) (mapSelectedBlocks : List (Nat × CBlockIndex))
    (nStakeModifierPrev : Nat) (cs : List CBlockIndex) (j : Nat) : Option CBlockIndex :=
  List.argmin (fun c => selectionHashSpec env c nStakeModifierPrev)
    ((cs.take j).filter (notSelected mapSelectedBlocks))

/-- The order `operator<` of `uint256` is a strict total order. -/
def uint256StrictTotal (env : Env) : Prop :=
  (∀ a b, env.uint256_lt a b = true → env.uint256_lt b a = false)
    ∧ (∀ a b c, env.uint256_lt a b = true → env.uint256_lt b c = true →
        env.uint256_lt a c = true)
    ∧ (∀ a b, env.uint256_lt a b = false → env.uint256_lt b a = false → a = b)

/-- Every block of the chain is found in the block index under its own hash. -/
def chainResolves (env : Env) (chain : List CBlockIndex) : Prop :=
  ∀ b ∈ chain, ∃ pprev, env.mapBlockIndex b.hashBlock = some (b, pprev)

/-! ## A small chain for worked examples -/

/-- Block `h` of the example chain: height `h`, time `1000 * h`, hash `h + 1`,
stored modifier `7`; the flags are given. -/
def exBlock (h : Nat) (fGenerated fProofOfStake fEntropy : Bool) : CBlockIndex :=
  ⟨(h : Int), 1000 * h, h + 1, 7, fGenerated, fProofOfStake, fEntropy⟩

/-- The example chain, tip first: heights 3, 2, 1, 0. -/
def exChain : List CBlockIndex :=
  [exBlock 3 false true true, exBlock 2 false false false,
   exBlock 1 true true true, exBlock 0 true false false]

/-- The suffix of the example chain that starts at the block of hash `hash`. -/
def exLookup (hash : Nat) : List CBlockIndex → Option (CBlockIndex × List CBlockIndex)
  | [] => none
  | b :: rest => if b.hashBlock = hash then some (b, rest) else exLookup hash rest

/-- A toy hash for worked examples: the sum of the bytes. -/
def exHash (bytes : List Nat) : Nat := bytes.sum

/-- An example environment: interval 600 s, ratio 3, minimum stake 100, minimum
age 60 s, the toy hash, a constant compact expansion, numeric hash order, the
example chain as block index, one transaction (hash 9) in the block of hash 2,
a solver that reads the shape from the first script byte. -/
def exEnv : Env :=
  ⟨false, 600, 60, 3, 100, 60, exHash, fun _ => 2 ^ 200, fun a b => decide (a < b),
   fun hash => exLookup hash exChain,
   fun hash => if hash = 9 then some (⟨[⟨500, [1]⟩, ⟨50, [0]⟩]⟩, 2) else none,
   fun spk => if spk = [1] then some (txnouttype.TX_PUBKEYHASH, [[5]])
     else if spk = [2] then some (txnouttype.TX_PUBKEY, [[6]])
     else if spk = [3] then some (txnouttype.TX_SCRIPTHASH, [[7]]) else none,
   fun v => v.sum, fun v => v.sum + 1, fun block key_id => block.posBlockSig = [key_id]⟩

/-- The example environment with another hash function. -/
def exEnvWith (Hash : List Nat → Nat) : Env :=
  ⟨false, 600, 60, 3, 100, 60, Hash, fun _ => 2 ^ 200, fun a b => decide (a < b),
   exEnv.mapBlockIndex, exEnv.GetTransaction, exEnv.Solver, exEnv.CKeyID_uint160,
   exEnv.CPubKey_GetID, exEnv.CheckBlockSignature⟩

/-- The example environment with another mainnet modifier interval. -/
def exEnvInterval (nInterval : Nat) : Env :=
  ⟨false, nInterval, 60, 3, 100, 60, exHash, fun _ => 2 ^ 200, fun a b => decide (a < b),
   exEnv.mapBlockIndex, exEnv.GetTransaction, exEnv.Solver, exEnv.CKeyID_uint160,
   exEnv.CPubKey_GetID, exEnv.CheckBlockSignature⟩

/-- A toy hash that is small on the block of hash 3 (first byte 3) and large,
above `2 ^ 224`, on every other input. -/
def exHashBias (bytes : List Nat) : Nat :=
  if bytes.headD 0 = 3 then 5 else 2 ^ 255

/-- A toy hash whose value is always the largest 256-bit number. -/
def exHashMax (_ : List Nat) : Nat := 2 ^ 256 - 1

/-- A toy hash that is 0 when byte 48 of the input (the low byte of the try time
in a kernel input) is `0xD2`, and large otherwise. -/
def exHashTime (bytes : List Nat) : Nat :=
  if bytes.getD 48 0 = 0xD2 then 0 else 2 ^ 255

/-- A header that stakes output 0 of the example transaction at time 2000. -/
def exHeader : CBlockHeader :=
  ⟨0, 2000, [5], ⟨9, 0⟩, exHash (kernelInputSpec 7 1000 0 9 2000), 7⟩

/-! ## Lemmas -/

open Finset

/-- `leBytes n v` has `n` bytes. -/
theorem leBytes_length (n v : Nat) : (leBytes n v).length = n := by
  induction n generalizing v with
  | zero => rfl
  | succ n ih => simp [leBytes, ih]

/-- Every element of `leBytes n v` is a byte. -/
theorem leBytes_lt (n v : Nat) : ∀ b ∈ leBytes n v, b < 256 := by
  induction n generalizing v with
  | zero => simp [leBytes]
  | succ n ih =>
    intro b hb
    simp only [leBytes, List.mem_cons] at hb
    rcases hb with rfl | hb
    · exact Nat.mod_lt _ (by norm_num)
    · exact ih _ b hb

/-- The bytes of `leBytes n v` are the little-endian digits of `v` modulo `256 ^ n`. -/
theorem leBytes_ofDigits (n v : Nat) : Nat.ofDigits 256 (leBytes n v) = v % 256 ^ n := by
  induction n generalizing v with
  | zero => simp [leBytes, Nat.mod_one]
  | succ n ih =>
    simp only [leBytes, Nat.ofDigits_cons, ih]
    rw [pow_succ, mul_comm (256 ^ n) 256, Nat.mod_mul]

/-- A call of `stakeHash` on the stream that holds the modifier hashes the kernel input of the spec. -/
theorem stakeHash_eq_spec (env : Env) (M nTimeBlockFrom nTimeTx : Nat) (prevout : COutPoint) :
    stakeHash env nTimeTx (leBytes 8 M) prevout.n prevout.hash nTimeBlockFrom
      = kernelHashSpec env M nTimeBlockFrom prevout nTimeTx := rfl

/-- The search loop: success, least successful iteration and written-back values. -/
theorem searchLoop_spec (env : Env) (ss : List Nat) (prevout : COutPoint)
    (nTimeBlockFrom bnTarget nTimeTx : Nat) (k i h0 : Nat) :
    let r := searchLoop env ss prevout nTimeBlockFrom bnTarget nTimeTx k i h0
    let kh := fun j => stakeHash env ((nTimeTx + j) % 2 ^ 32) ss prevout.n prevout.hash nTimeBlockFrom
    (r.1 = true ↔ ∃ j, i ≤ j ∧ j < i + k ∧ kh j < bnTarget)
    ∧ (r.1 = true → ∃ j, i ≤ j ∧ j < i + k ∧ kh j < bnTarget ∧ (∀ j', i ≤ j' → j' < j → ¬ kh j' < bnTarget)
          ∧ r.2.1 = (nTimeTx + j) % 2 ^ 32 ∧ r.2.2 = kh j)
    ∧ (r.1 = false → r.2.1 = nTimeTx ∧ r.2.2 = if k = 0 then h0 else kh (i + k - 1)) := by
  induction k generalizing i h0 with
  | zero =>
    simp only [searchLoop]
    refine ⟨?_, ?_, ?_⟩
    · constructor
      · intro h; cases h
      · rintro ⟨j, h1, h2, -⟩; omega
    · intro h; cases h
    · intro _; simp
  | succ k ih =>
    simp only [searchLoop]
    by_cases hlt : stakeHash env ((nTimeTx + i) % 2 ^ 32) ss prevout.n prevout.hash nTimeBlockFrom
        ≥ bnTarget
    · simp only [hlt, if_true]
      obtain ⟨ih1, ih2, ih3⟩ := ih (i + 1)
        (stakeHash env ((nTimeTx + i) % 2 ^ 32) ss prevout.n prevout.hash nTimeBlockFrom)
      refine ⟨?_, ?_, ?_⟩
      · rw [ih1]
        constructor
        · rintro ⟨j, h1, h2, h3⟩; exact ⟨j, by omega, by omega, h3⟩
        · rintro ⟨j, h1, h2, h3⟩
          have : j ≠ i := by
            rintro rfl
            exact absurd h3 (by omega)
          exact ⟨j, by omega, by omega, h3⟩
      · intro h
        obtain ⟨j, h1, h2, h3, h4, h5⟩ := ih2 h
        refine ⟨j, by omega, by omega, h3, ?_, h5⟩
        intro j' hj1 hj2
        by_cases hji : j' = i
        · subst hji; omega
        · exact h4 j' (by omega) hj2
      · intro h
        obtain ⟨h1, h2⟩ := ih3 h
        refine ⟨h1, ?_⟩
        rw [h2]
        by_cases hk : k = 0
        · subst hk; simp
        · simp only [hk, if_false, Nat.succ_ne_zero]
          congr 2
          omega
    · simp only [hlt, if_false]
      refine ⟨?_, ?_, ?_⟩
      · constructor
        · intro _; exact ⟨i, le_refl _, by omega, by omega⟩
        · intro _; trivial
      · intro _
        exact ⟨i, le_refl _, by omega, by omega, fun j' h1 h2 => by omega, rfl, rfl⟩
      · intro h; cases h

/-- Check mode returns true exactly when all its checks pass. -/
theorem check_mode_iff (env : Env) (nBits : Nat)
    (blockFrom : CBlockIndex × List CBlockIndex) (txPrev : CTransaction)
    (prevout : COutPoint) (nTimeTx nHashDrift hashProofOfStake nStakeModifier : Nat) :
    (CheckStakeKernelHash env nBits blockFrom txPrev prevout nTimeTx nHashDrift true
        hashProofOfStake nStakeModifier).ret = true ↔
      (env.MIN_STAKE_AMOUNT ≤ (stakedOutput txPrev prevout).nValue
        ∧ (toU32 (GetBlockTime blockFrom.1) : Int) + env.MinStakeAge ≤ (nTimeTx : Int)
        ∧ toU32 (GetBlockTime blockFrom.1) ≤ nTimeTx
        ∧ ComputeNextStakeModifier env (blockFrom.1 :: blockFrom.2) = (true, nStakeModifier)
        ∧ hashProofOfStake = kernelHashSpec env nStakeModifier
            (toU32 (GetBlockTime blockFrom.1)) prevout nTimeTx
        ∧ hashProofOfStake < arith_uint256_mul
            (toU64 (stakedOutput txPrev prevout).nValue / 100) (env.SetCompact nBits)) := by
  unfold CheckStakeKernelHash
  simp only []
  by_cases h1 : (stakedOutput txPrev prevout).nValue < env.MIN_STAKE_AMOUNT
  · simp only [h1, if_true]
    constructor
    · intro h; cases h
    · rintro ⟨h, -⟩; omega
  simp only [h1, if_false]
  by_cases h2 : nTimeTx < toU32 (GetBlockTime blockFrom.1)
  · simp only [h2, if_true]
    constructor
    · intro h; cases h
    · rintro ⟨-, -, h, -⟩; omega
  simp only [h2, if_false]
  by_cases h3 : (toU32 (GetBlockTime blockFrom.1) : Int) + env.MinStakeAge > (nTimeTx : Int)
  · simp only [h3, if_true]
    constructor
    · intro h; cases h
    · rintro ⟨-, h, -⟩; omega
  simp only [h3, if_false]
  rcases hc : ComputeNextStakeModifier env (blockFrom.1 :: blockFrom.2) with ⟨ok, M⟩
  cases ok
  · simp
  · simp only [if_true]
    by_cases h4 : nStakeModifier = M
    · subst h4
      simp only [ne_eq, not_true_eq_false, if_false, stakeHash, kernelHashSpec, kernelInputSpec,
        stakeTarget]
      by_cases h5 : env.Hash (leBytes 8 nStakeModifier
            ++ leBytes 4 (toU32 (GetBlockTime blockFrom.1))
            ++ leBytes 4 prevout.n ++ leBytes 32 prevout.hash ++ leBytes 4 nTimeTx)
          = hashProofOfStake
      · simp only [h5, not_true_eq_false, if_false, decide_eq_true_eq]
        constructor
        · intro h
          exact ⟨by omega, by omega, by omega, trivial, trivial, h⟩
        · rintro ⟨-, -, -, -, -, h⟩; exact h
      · simp only [h5, not_false_eq_true, if_true]
        constructor
        · intro h; cases h
        · rintro ⟨-, -, -, -, h, -⟩; exact absurd h.symm h5
    · simp only [ne_eq, h4, not_false_eq_true, if_true]
      constructor
      · intro h; cases h
      · rintro ⟨-, -, -, h, -⟩
        simp only [Prod.mk.injEq, true_and] at h
        exact absurd h.symm h4

/-- Search mode past the eligibility checks is the search loop. -/
theorem checkStakeKernelHash_search_eq (env : Env) (nBits : Nat)
    (blockFrom : CBlockIndex × List CBlockIndex) (txPrev : CTransaction)
    (prevout : COutPoint) (nTimeTx nHashDrift hashProofOfStake nStakeModifier Mreq : Nat)
    (hvalue : env.MIN_STAKE_AMOUNT ≤ (stakedOutput txPrev prevout).nValue)
    (htime : toU32 (GetBlockTime blockFrom.1) ≤ nTimeTx)
    (hage : (toU32 (GetBlockTime blockFrom.1) : Int) + env.MinStakeAge ≤ (nTimeTx : Int))
    (hM : ComputeNextStakeModifier env (blockFrom.1 :: blockFrom.2) = (true, Mreq)) :
    CheckStakeKernelHash env nBits blockFrom txPrev prevout nTimeTx nHashDrift false
        hashProofOfStake nStakeModifier
      = ⟨(searchLoop env (leBytes 8 Mreq) prevout (toU32 (GetBlockTime blockFrom.1))
            (stakeTarget env (stakedOutput txPrev prevout).nValue nBits) nTimeTx nHashDrift 0
            hashProofOfStake).1,
         (searchLoop env (leBytes 8 Mreq) prevout (toU32 (GetBlockTime blockFrom.1))
            (stakeTarget env (stakedOutput txPrev prevout).nValue nBits) nTimeTx nHashDrift 0
            hashProofOfStake).2.1,
         (searchLoop env (leBytes 8 Mreq) prevout (toU32 (GetBlockTime blockFrom.1))
            (stakeTarget env (stakedOutput txPrev prevout).nValue nBits) nTimeTx nHashDrift 0
            hashProofOfStake).2.2, Mreq⟩ := by
  unfold CheckStakeKernelHash
  simp only [not_lt.2 hvalue, not_lt.2 htime, gt_iff_lt, not_lt.2 hage, if_false, hM,
    Bool.false_eq_true]

/-- Truncating division of two non-negative integers is the division of naturals. -/
theorem int_tdiv_natCast (a b : Nat) : Int.tdiv (a : Int) (b : Int) = ((a / b : Nat) : Int) := by
  rw [Int.tdiv_eq_ediv (Int.ofNat_nonneg a) (Int.ofNat_nonneg b)]
  rfl

/-- The walk of `GetLastStakeModifier` stops at the first block with the generated flag. -/
theorem getLastStakeModifier_nearest (pre : List CBlockIndex) (a : CBlockIndex)
    (post : List CBlockIndex) (hpre : ∀ b ∈ pre, b.fGeneratedStakeModifier = false)
    (ha : a.fGeneratedStakeModifier = true) :
    GetLastStakeModifier (pre ++ a :: post) = some (a.nStakeModifier, GetBlockTime a) := by
  induction pre with
  | nil =>
    cases post <;> simp [GetLastStakeModifier, ha]
  | cons b pre ih =>
    have hb : b.fGeneratedStakeModifier = false := hpre b (List.mem_cons_self _ _)
    have ih := ih (fun c hc => hpre c (List.mem_cons_of_mem _ hc))
    cases pre with
    | nil => simpa [GetLastStakeModifier, hb] using ih
    | cons c pre => simpa [GetLastStakeModifier, hb] using ih

/-- The walk of `GetLastStakeModifier` succeeds when some block has the generated flag. -/
theorem getLastStakeModifier_isSome (chain : List CBlockIndex)
    (h : ∃ b ∈ chain, b.fGeneratedStakeModifier = true) :
    ∃ r, GetLastStakeModifier chain = some r := by
  induction chain with
  | nil => simp at h
  | cons b rest ih =>
    by_cases hb : b.fGeneratedStakeModifier = true
    · cases rest <;> exact ⟨(b.nStakeModifier, GetBlockTime b), by simp [GetLastStakeModifier, hb]⟩
    · have hrest : ∃ c ∈ rest, c.fGeneratedStakeModifier = true := by
        obtain ⟨c, hc, hf⟩ := h
        rcases List.mem_cons.1 hc with rfl | hc
        · exact absurd hf hb
        · exact ⟨c, hc, hf⟩
      obtain ⟨r, hr⟩ := ih hrest
      cases rest with
      | nil => simp at hrest
      | cons c rest => exact ⟨r, by simpa [GetLastStakeModifier, hb] using hr⟩

/-- An examined candidate is not already selected and is the index entry of a candidate. -/
theorem examined_mem (env : Env) (sel : List (Nat × CBlockIndex)) (stop : Int)
    (cands : List (Int × Nat)) (seen : Bool) :
    ∀ q ∈ examined env sel stop cands seen,
      mapCount sel q.hashBlock = false ∧
        ∃ item ∈ cands, ∃ anc, env.mapBlockIndex item.2 = some (q, anc) := by
  induction cands generalizing seen with
  | nil => simp [examined]
  | cons item rest ih =>
    intro q hq
    unfold examined at hq
    split at hq
    · simp at hq
    · rename_i pindex anc hlook
      split_ifs at hq with h1 h2
      · simp at hq
      · obtain ⟨h, item', hi, anc', ha⟩ := ih seen q hq
        exact ⟨h, item', List.mem_cons_of_mem _ hi, anc', ha⟩
      · rcases List.mem_cons.1 hq with rfl | hq
        · exact ⟨by simpa using h2, item, List.mem_cons_self _ _, anc, hlook⟩
        · obtain ⟨h, item', hi, anc', ha⟩ := ih true q hq
          exact ⟨h, item', List.mem_cons_of_mem _ hi, anc', ha⟩

/-- When the candidates resolve and one is not selected, some candidate is examined. -/
theorem examined_ne_nil (env : Env) (sel : List (Nat × CBlockIndex)) (stop : Int)
    (cands : List (Int × Nat))
    (hres : ∀ item ∈ cands, ∃ b anc, env.mapBlockIndex item.2 = some (b, anc)
      ∧ b.hashBlock = item.2)
    (hex : ∃ item ∈ cands, mapCount sel item.2 = false) :
    examined env sel stop cands false ≠ [] := by
  induction cands with
  | nil => simp at hex
  | cons item rest ih =>
    obtain ⟨b, anc, hb, hh⟩ := hres item (List.mem_cons_self _ _)
    unfold examined
    simp only [hb, Bool.false_and, Bool.false_eq_true, if_false]
    split_ifs with h2
    · apply ih (fun i hi => hres i (List.mem_cons_of_mem _ hi))
      obtain ⟨i, hi, hc⟩ := hex
      rcases List.mem_cons.1 hi with rfl | hi
      · rw [hh] at h2; rw [h2] at hc; cases hc
      · exact ⟨i, hi, hc⟩
    · simp

/-- The selector loop from a state that already holds a block `c`. -/
theorem selectLoop_seen (env : Env) (sel : List (Nat × CBlockIndex)) (stop : Int) (M : Nat)
    (cands : List (Int × Nat)) (c : CBlockIndex)
    (hres : ∀ item ∈ cands, ∃ b anc, env.mapBlockIndex item.2 = some (b, anc)) :
    ∃ p, selectLoop env sel stop M cands true (selectionHash env c M) (some c) = (true, some p)
      ∧ (p ∈ examined env sel stop cands true ∨ p = c)
      ∧ (∀ q ∈ examined env sel stop cands true, selectionHash env p M ≤ selectionHash env q M)
      ∧ selectionHash env p M ≤ selectionHash env c M := by
  induction cands generalizing c with
  | nil => exact ⟨c, rfl, Or.inr rfl, by simp [examined], le_refl _⟩
  | cons item rest ih =>
    obtain ⟨b, anc, hb⟩ := hres item (List.mem_cons_self _ _)
    have hres' : ∀ i ∈ rest, ∃ b anc, env.mapBlockIndex i.2 = some (b, anc) :=
      fun i hi => hres i (List.mem_cons_of_mem _ hi)
    unfold examined selectLoop
    simp only [hb, Bool.true_and, decide_eq_true_eq]
    by_cases h1 : GetBlockTime b > stop
    · rw [if_pos h1, if_pos h1]
      exact ⟨c, rfl, Or.inr rfl, by simp, le_refl _⟩
    · rw [if_neg h1, if_neg h1]
      by_cases h2 : mapCount sel b.hashBlock = true
      · rw [if_pos h2, if_pos h2]
        exact ih c hres'
      · rw [if_neg h2, if_neg h2]
        by_cases h3 : selectionHash env b M < selectionHash env c M
        · rw [if_pos h3]
          obtain ⟨p, hp, hmem, hmin, hle⟩ := ih b hres'
          refine ⟨p, hp, Or.inl ?_, ?_, le_trans hle (le_of_lt h3)⟩
          · rcases hmem with hmem | hmem
            · exact List.mem_cons_of_mem _ hmem
            · rw [hmem]; exact List.mem_cons_self _ _
          · intro q hq
            rcases List.mem_cons.1 hq with rfl | hq
            · exact hle
            · exact hmin q hq
        · rw [if_neg h3, if_neg (by decide)]
          obtain ⟨p, hp, hmem, hmin, hle⟩ := ih c hres'
          refine ⟨p, hp, ?_, ?_, hle⟩
          · rcases hmem with hmem | hmem
            · exact Or.inl (List.mem_cons_of_mem _ hmem)
            · exact Or.inr hmem
          · intro q hq
            rcases List.mem_cons.1 hq with rfl | hq
            · exact le_trans hle (not_lt.1 h3)
            · exact hmin q hq

/-- The selector loop from the initial state returns a minimal examined candidate. -/
theorem selectLoop_fresh (env : Env) (sel : List (Nat × CBlockIndex)) (stop : Int) (M : Nat)
    (cands : List (Int × Nat)) (best : Nat) (cur : Option CBlockIndex)
    (hres : ∀ item ∈ cands, ∃ b anc, env.mapBlockIndex item.2 = some (b, anc)) :
    (examined env sel stop cands false = [] →
        selectLoop env sel stop M cands false best cur = (false, cur))
    ∧ (examined env sel stop cands false ≠ [] →
        ∃ p, selectLoop env sel stop M cands false best cur = (true, some p)
          ∧ p ∈ examined env sel stop cands false
          ∧ ∀ q ∈ examined env sel stop cands false,
              selectionHash env p M ≤ selectionHash env q M) := by
  induction cands with
  | nil => exact ⟨fun _ => rfl, fun h => absurd rfl h⟩
  | cons item rest ih =>
    obtain ⟨b, anc, hb⟩ := hres item (List.mem_cons_self _ _)
    have hres' : ∀ i ∈ rest, ∃ b anc, env.mapBlockIndex i.2 = some (b, anc) :=
      fun i hi => hres i (List.mem_cons_of_mem _ hi)
    unfold examined selectLoop
    simp only [hb, Bool.false_and, Bool.false_eq_true, if_false, Bool.not_false, if_true]
    by_cases h2 : mapCount sel b.hashBlock = true
    · rw [if_pos h2, if_pos h2]
      exact ih hres'
    · rw [if_neg h2, if_neg h2]
      obtain ⟨p, hp, hmem, hmin, hle⟩ := selectLoop_seen env sel stop M rest b hres'
      refine ⟨fun h => (by cases h), fun _ => ⟨p, hp, ?_, ?_⟩⟩
      · rcases hmem with hmem | hmem
        · exact List.mem_cons_of_mem _ hmem
        · rw [hmem]; exact List.mem_cons_self _ _
      · intro q hq
        rcases List.mem_cons.1 hq with rfl | hq
        · exact hle
        · exact hmin q hq

/-- The selection hash of a proof-of-stake block is below `2 ^ 224`. -/
theorem selectionHash_pos_lt (env : Env) (hHash : ∀ bytes, env.Hash bytes < 2 ^ 256)
    (q : CBlockIndex) (M : Nat) (hq : q.fProofOfStake = true) :
    selectionHash env q M < 2 ^ 224 := by
  unfold selectionHash
  simp only [hq, if_true, Nat.shiftRight_eq_div_pow]
  apply Nat.div_lt_of_lt_mul
  have := hHash (leBytes 32 q.hashBlock ++ leBytes 8 M)
  calc env.Hash (leBytes 32 q.hashBlock ++ leBytes 8 M) < 2 ^ 256 := this
    _ = 2 ^ 32 * 2 ^ 224 := by norm_num

/-- An insertion adds at most one entry. -/
theorem mapInsert_length (sel : List (Nat × CBlockIndex)) (h : Nat) (p : CBlockIndex) :
    (mapInsert sel h p).length ≤ sel.length + 1 := by
  unfold mapInsert
  split_ifs <;> simp

/-- The membership test is false exactly for the hashes that are not keys. -/
theorem mapCount_eq_false_iff (sel : List (Nat × CBlockIndex)) (h : Nat) :
    mapCount sel h = false ↔ h ∉ sel.map Prod.fst := by
  unfold mapCount
  rw [← Bool.not_eq_true, List.any_eq_true]
  simp

/-- With distinct candidate hashes and fewer selected entries than candidates, some candidate is not selected. -/
theorem exists_unselected (cands : List (Int × Nat)) (sel : List (Nat × CBlockIndex))
    (hnd : (cands.map Prod.snd).Nodup) (hlen : sel.length < cands.length) :
    ∃ item ∈ cands, mapCount sel item.2 = false := by
  by_contra hcon
  push_neg at hcon
  have hsub : cands.map Prod.snd ⊆ sel.map Prod.fst := by
    intro h hh
    obtain ⟨item, hi, rfl⟩ := List.mem_map.1 hh
    by_contra hno
    exact hcon item hi ((mapCount_eq_false_iff sel item.2).2 hno)
  have := (List.subperm_of_subset hnd hsub).length_le
  simp at this
  omega

/-- The selector succeeds when the candidates resolve and one is not selected. -/
theorem select_succeeds (env : Env) (cands : List (Int × Nat)) (sel : List (Nat × CBlockIndex))
    (stop : Int) (M : Nat)
    (hres : ∀ item ∈ cands, ∃ b anc, env.mapBlockIndex item.2 = some (b, anc)
      ∧ b.hashBlock = item.2)
    (hex : ∃ item ∈ cands, mapCount sel item.2 = false) :
    ∃ p, SelectBlockFromCandidates env cands sel stop M = (true, some p) := by
  have hne := examined_ne_nil env sel stop cands hres hex
  have hres' : ∀ item ∈ cands, ∃ b anc, env.mapBlockIndex item.2 = some (b, anc) := by
    intro item hi
    obtain ⟨b, anc, h, -⟩ := hres item hi
    exact ⟨b, anc, h⟩
  obtain ⟨p, hp, -⟩ := (selectLoop_fresh env sel stop M cands 0 none hres').2 hne
  exact ⟨p, hp⟩

/-- The rounds succeed with `m` exactly when blocks are selected in every round and `m` holds their bits. -/
theorem selectionRounds_iff (env : Env) (cands : List (Int × Nat)) (M : Nat) (k r : Nat)
    (stop : Int) (acc : Nat) (sel : List (Nat × CBlockIndex)) (m : Nat) :
    selectionRounds env cands M k r stop acc sel = (true, m) ↔
      ∃ s, s.length = k ∧ roundsSelect env cands M s r stop sel ∧ m = writeBits acc r s := by
  induction k generalizing r stop acc sel with
  | zero =>
    simp only [selectionRounds, Prod.mk.injEq, true_and]
    constructor
    · intro h; exact ⟨[], rfl, trivial, h.symm⟩
    · rintro ⟨s, hs, -, hm⟩
      rw [List.length_eq_zero] at hs
      subst hs
      exact hm.symm
  | succ k ih =>
    unfold selectionRounds
    simp only []
    rcases hsel : SelectBlockFromCandidates env cands sel
        (stop + GetStakeModifierSelectionIntervalSection env (r : Int)) M with ⟨ok, po⟩
    constructor
    · intro h
      cases ok <;> cases po <;> simp only [] at h
      · cases h
      · cases h
      · cases h
      · rename_i p
        obtain ⟨s, hs, hr, hm⟩ := (ih _ _ _ _).1 h
        exact ⟨p :: s, by simp [hs], ⟨hsel, hr⟩, hm⟩
    · rintro ⟨s, hs, hr, hm⟩
      cases s with
      | nil => simp at hs
      | cons p s =>
        obtain ⟨h1, h2⟩ := hr
        rw [hsel] at h1
        cases h1
        simp only []
        exact (ih _ _ _ _).2 ⟨s, by simpa using hs, h2, hm⟩

/-- The rounds succeed when no more rounds remain than unselected candidates. -/
theorem selectionRounds_succeeds (env : Env) (cands : List (Int × Nat)) (M : Nat) (k r : Nat)
    (stop : Int) (acc : Nat) (sel : List (Nat × CBlockIndex))
    (hres : ∀ item ∈ cands, ∃ b anc, env.mapBlockIndex item.2 = some (b, anc)
      ∧ b.hashBlock = item.2)
    (hnd : (cands.map Prod.snd).Nodup) (hlen : sel.length + k ≤ cands.length) :
    ∃ m, selectionRounds env cands M k r stop acc sel = (true, m) := by
  induction k generalizing r stop acc sel with
  | zero => exact ⟨acc, rfl⟩
  | succ k ih =>
    obtain ⟨p, hp⟩ := select_succeeds env cands sel
      (stop + GetStakeModifierSelectionIntervalSection env (r : Int)) M hres
      (exists_unselected cands sel hnd (by omega))
    unfold selectionRounds
    simp only [hp]
    apply ih
    have := mapInsert_length sel p.hashBlock p
    omega

/-- Shift of `entropyBitAt` along a cons. -/
theorem entropyBitAt_cons_succ (b : CBlockIndex) (s : List CBlockIndex) (j : Nat) :
    entropyBitAt (b :: s) (j + 1) = entropyBitAt s j := by
  simp [entropyBitAt]

/-- The entropy bit at position 0. -/
theorem entropyBitAt_cons_zero (b : CBlockIndex) (s : List CBlockIndex) :
    entropyBitAt (b :: s) 0 = b.fStakeEntropyBit := by
  simp [entropyBitAt]

/-- A bit is at most 1. -/
theorem bool_toNat_le_one (b : Bool) : b.toNat ≤ 1 := by cases b <;> simp

/-- Below 64 rounds the written bits add up: bitwise or is addition on disjoint bits. -/
theorem writeBits_sum (s : List CBlockIndex) (acc r : Nat) (hacc : acc < 2 ^ r)
    (hr : r + s.length ≤ 64) :
    writeBits acc r s
      = acc + ∑ j in range s.length, (entropyBitAt s j).toNat * 2 ^ (r + j) := by
  induction s generalizing acc r with
  | nil => simp [writeBits]
  | cons b rest ih =>
    have hr64 : r < 64 := by simp at hr; omega
    have hb := bool_toNat_le_one b.fStakeEntropyBit
    have hpow : 2 ^ r * 2 ≤ 2 ^ 64 := by
      rw [← pow_succ]
      exact Nat.pow_le_pow_right (by norm_num) (by omega)
    have hsmall : b.fStakeEntropyBit.toNat * 2 ^ r < 2 ^ 64 := by
      have : b.fStakeEntropyBit.toNat * 2 ^ r ≤ 1 * 2 ^ r := Nat.mul_le_mul_right _ hb
      have h2 : 0 < 2 ^ r := Nat.two_pow_pos r
      omega
    have hor : acc ||| b.fStakeEntropyBit.toNat * 2 ^ r = acc + b.fStakeEntropyBit.toNat * 2 ^ r := by
      rw [Nat.lor_comm, mul_comm, ← Nat.mul_add_lt_is_or hacc]
      ring
    unfold writeBits
    rw [Nat.shiftLeft_eq, Nat.mod_eq_of_lt hsmall, hor]
    rw [ih (acc + b.fStakeEntropyBit.toNat * 2 ^ r) (r + 1) ?_ ?_]
    · rw [List.length_cons, Finset.sum_range_succ']
      simp only [entropyBitAt_cons_succ, entropyBitAt_cons_zero, Nat.add_zero]
      have : ∀ j, r + 1 + j = r + (j + 1) := fun j => by omega
      simp only [this]
      ring
    · have : b.fStakeEntropyBit.toNat * 2 ^ r ≤ 1 * 2 ^ r := Nat.mul_le_mul_right _ hb
      rw [pow_succ]
      omega
    · simp at hr ⊢; omega

/-- Bit `r` of the packed sum is the entropy bit at position `r`. -/
theorem bits_sum_testBit (s : List CBlockIndex) (r : Nat) :
    (∑ j in range s.length, (entropyBitAt s j).toNat * 2 ^ j).testBit r = entropyBitAt s r := by
  induction s generalizing r with
  | nil => simp [entropyBitAt]
  | cons b rest ih =>
    have hrec : (∑ j in range (b :: rest).length, (entropyBitAt (b :: rest) j).toNat * 2 ^ j)
        = Nat.bit b.fStakeEntropyBit
            (∑ j in range rest.length, (entropyBitAt rest j).toNat * 2 ^ j) := by
      rw [List.length_cons, Finset.sum_range_succ', Nat.bit_val, Finset.mul_sum]
      simp only [entropyBitAt_cons_succ, entropyBitAt_cons_zero, pow_zero, mul_one]
      congr 1
      apply Finset.sum_congr rfl
      intro j _
      rw [pow_succ]; ring
    rw [hrec]
    cases r with
    | zero => rw [Nat.testBit_bit_zero, entropyBitAt_cons_zero]
    | succ r => rw [Nat.testBit_bit_succ, ih, entropyBitAt_cons_succ]

/-- The backward walk collects the longest prefix of blocks at or after the start time. -/
theorem gatherCandidates_eq (start : Int) (chain : List CBlockIndex) :
    gatherCandidates start chain
      = (chain.takeWhile (fun b => decide (GetBlockTime b ≥ start))).map
          (fun b => (GetBlockTime b, b.hashBlock)) := by
  induction chain with
  | nil => rfl
  | cons b rest ih =>
    unfold gatherCandidates
    by_cases h : GetBlockTime b ≥ start
    · simp [h, List.takeWhile_cons, ih]
    · simp [h, List.takeWhile_cons]

/-- Sorting and reversing permutes the gathered candidates. -/
theorem sortedCandidates_perm (env : Env) (start : Int) (chain : List CBlockIndex) :
    (sortedCandidates env start chain).Perm (gatherCandidates start chain) :=
  (List.reverse_perm _).trans (List.perm_insertionSort _ _)

/-- On a chain that resolves, every candidate resolves to a block of its hash. -/
theorem sortedCandidates_resolve (env : Env) (start : Int) (chain : List CBlockIndex)
    (hres : chainResolves env chain) :
    ∀ item ∈ sortedCandidates env start chain,
      ∃ b anc, env.mapBlockIndex item.2 = some (b, anc) ∧ b.hashBlock = item.2 := by
  intro item hi
  rw [(sortedCandidates_perm env start chain).mem_iff, gatherCandidates_eq] at hi
  obtain ⟨b, hb, rfl⟩ := List.mem_map.1 hi
  obtain ⟨anc, ha⟩ := hres b ((List.takeWhile_sublist _).subset hb)
  exact ⟨b, anc, ha, rfl⟩

/-- On a chain with distinct hashes, the candidate hashes are distinct. -/
theorem sortedCandidates_nodup (env : Env) (start : Int) (chain : List CBlockIndex)
    (hnd : (chain.map (fun b => b.hashBlock)).Nodup) :
    ((sortedCandidates env start chain).map Prod.snd).Nodup := by
  rw [((sortedCandidates_perm env start chain).map Prod.snd).nodup_iff, gatherCandidates_eq,
    List.map_map]
  exact hnd.sublist ((List.takeWhile_sublist _).map _)

/-- On the rebuild path `ComputeNextStakeModifier` is the selection rounds. -/
theorem computeNextStakeModifier_rebuild (env : Env) (prev : CBlockIndex)
    (pprev : List CBlockIndex) (M : Nat) (t : Int)
    (hheight : prev.nHeight ≠ 0)
    (hlast : GetLastStakeModifier (prev :: pprev) = some (M, t))
    (hrebuild : Int.tdiv t (getIntervalVersion env)
      < Int.tdiv (GetBlockTime prev) (getIntervalVersion env)) :
    ComputeNextStakeModifier env (prev :: pprev)
      = selectionRounds env
          (sortedCandidates env (selectionIntervalStart env prev) (prev :: pprev)) M
          (min 64 (sortedCandidates env (selectionIntervalStart env prev) (prev :: pprev)).length)
          0 (selectionIntervalStart env prev) 0 [] := by
  simp only [ComputeNextStakeModifier, hheight, if_false, hlast, ge_iff_le, not_le.2 hrebuild]

/-- The example chain resolves in the example block index. -/
theorem exChain_resolves : chainResolves exEnv exChain := by
  intro b hb
  simp only [exChain, List.mem_cons, List.mem_singleton, List.not_mem_nil, or_false] at hb
  rcases hb with rfl | rfl | rfl | rfl <;> exact ⟨_, rfl⟩

/-- Only the value modulo `256 ^ n` matters for `leBytes n`. -/
theorem leBytes_mod (n v : Nat) : leBytes n (v % 256 ^ n) = leBytes n v := by
  induction n generalizing v with
  | zero => rfl
  | succ n ih =>
    simp only [leBytes]
    have h1 : v % 256 ^ (n + 1) % 256 = v % 256 :=
      Nat.mod_mod_of_dvd v (Dvd.intro_left (256 ^ n) (pow_succ 256 n).symm)
    have h2 : v % 256 ^ (n + 1) / 256 = v / 256 % 256 ^ n := by
      rw [pow_succ, mul_comm (256 ^ n) 256, Nat.mod_mul_right_div_self]
    rw [h1, h2, ih]

/-- The kernel hash depends on the try time modulo `2 ^ 32` only. -/
theorem kernelHashSpec_mod (env : Env) (M nTimeBlockFrom : Nat) (prevout : COutPoint)
    (t : Nat) :
    kernelHashSpec env M nTimeBlockFrom prevout (t % 2 ^ 32)
      = kernelHashSpec env M nTimeBlockFrom prevout t := by
  have h := leBytes_mod 4 t
  have h256 : (256 : Nat) ^ 4 = 2 ^ 32 := by norm_num
  rw [h256] at h
  simp only [kernelHashSpec, kernelInputSpec, h]

/-- Check mode never writes to its in/out parameters. -/
theorem check_mode_outputs (env : Env) (nBits : Nat)
    (blockFrom : CBlockIndex × List CBlockIndex) (txPrev : CTransaction)
    (prevout : COutPoint) (nTimeTx nHashDrift hashProofOfStake nStakeModifier : Nat) :
    CheckStakeKernelHash env nBits blockFrom txPrev prevout nTimeTx nHashDrift true
        hashProofOfStake nStakeModifier
      = ⟨(CheckStakeKernelHash env nBits blockFrom txPrev prevout nTimeTx nHashDrift true
          hashProofOfStake nStakeModifier).ret, nTimeTx, hashProofOfStake, nStakeModifier⟩ := by
  unfold CheckStakeKernelHash
  simp only []
  rcases ComputeNextStakeModifier env (blockFrom.1 :: blockFrom.2) with ⟨ok, M⟩
  cases ok <;> simp only [if_true] <;> split_ifs <;> rfl

/-- Search mode either fails before the loop, leaving everything untouched, or passes the eligibility checks with a computed modifier. -/
theorem search_mode_cases (env : Env) (nBits : Nat)
    (blockFrom : CBlockIndex × List CBlockIndex) (txPrev : CTransaction)
    (prevout : COutPoint) (nTimeTx nHashDrift hashProofOfStake nStakeModifier : Nat) :
    CheckStakeKernelHash env nBits blockFrom txPrev prevout nTimeTx nHashDrift false
        hashProofOfStake nStakeModifier
      = ⟨false, nTimeTx, hashProofOfStake, nStakeModifier⟩
    ∨ (env.MIN_STAKE_AMOUNT ≤ (stakedOutput txPrev prevout).nValue
        ∧ toU32 (GetBlockTime blockFrom.1) ≤ nTimeTx
        ∧ (toU32 (GetBlockTime blockFrom.1) : Int) + env.MinStakeAge ≤ (nTimeTx : Int)
        ∧ ∃ Mreq, ComputeNextStakeModifier env (blockFrom.1 :: blockFrom.2) = (true, Mreq)) := by
  by_cases h1 : (stakedOutput txPrev prevout).nValue < env.MIN_STAKE_AMOUNT
  · left; unfold CheckStakeKernelHash; simp only [h1, if_true]
  by_cases h2 : nTimeTx < toU32 (GetBlockTime blockFrom.1)
  · left; unfold CheckStakeKernelHash; simp only [h1, h2, if_true, if_false]
  by_cases h3 : (toU32 (GetBlockTime blockFrom.1) : Int) + env.MinStakeAge > (nTimeTx : Int)
  · left; unfold CheckStakeKernelHash; simp only [h1, h2, h3, if_true, if_false]
  rcases hc : ComputeNextStakeModifier env (blockFrom.1 :: blockFrom.2) with ⟨ok, M⟩
  cases ok
  · left; unfold CheckStakeKernelHash; simp only [h1, h2, h3, if_false, hc]
  · right; exact ⟨by omega, by omega, by omega, M, rfl⟩

/-- The search loop with a drift of one. -/
theorem searchLoop_one (env : Env) (ss : List Nat) (prevout : COutPoint)
    (nTimeBlockFrom bnTarget nTimeTx h0 : Nat) :
    searchLoop env ss prevout nTimeBlockFrom bnTarget nTimeTx 1 0 h0
      = if stakeHash env (nTimeTx % 2 ^ 32) ss prevout.n prevout.hash nTimeBlockFrom ≥ bnTarget
        then (false, nTimeTx,
          stakeHash env (nTimeTx % 2 ^ 32) ss prevout.n prevout.hash nTimeBlockFrom)
        else (true, nTimeTx % 2 ^ 32,
          stakeHash env (nTimeTx % 2 ^ 32) ss prevout.n prevout.hash nTimeBlockFrom) := by
  simp only [searchLoop, Nat.add_zero]

/-- Check mode agrees with a search of drift one at the same try time. -/
theorem round_trip (env : Env) (nBits : Nat)
    (blockFrom : CBlockIndex × List CBlockIndex) (txPrev : CTransaction)
    (prevout : COutPoint) (nTimeTx nHashDrift H M h0 m0 : Nat) :
    (CheckStakeKernelHash env nBits blockFrom txPrev prevout nTimeTx nHashDrift true H M).ret
        = true ↔
      ((CheckStakeKernelHash env nBits blockFrom txPrev prevout nTimeTx 1 false h0 m0).ret
          = true
        ∧ (CheckStakeKernelHash env nBits blockFrom txPrev prevout nTimeTx 1 false h0
            m0).hashProofOfStake = H
        ∧ (CheckStakeKernelHash env nBits blockFrom txPrev prevout nTimeTx 1 false h0
            m0).nStakeModifier = M
        ∧ H < stakeTarget env (stakedOutput txPrev prevout).nValue nBits) := by
  rw [check_mode_iff]
  constructor
  · rintro ⟨hv, hage, ht, hM, hH, hlt⟩
    rw [checkStakeKernelHash_search_eq env nBits blockFrom txPrev prevout nTimeTx 1 h0 m0 M
      hv ht hage hM, searchLoop_one, stakeHash_eq_spec, kernelHashSpec_mod, ← hH]
    have hlt' : H < stakeTarget env (stakedOutput txPrev prevout).nValue nBits := hlt
    rw [if_neg (by omega)]
    exact ⟨rfl, rfl, rfl, hlt'⟩
  · rintro ⟨hret, hH, hM, hlt⟩
    rcases search_mode_cases env nBits blockFrom txPrev prevout nTimeTx 1 h0 m0 with
      hf | ⟨hv, ht, hage, Mreq, hreq⟩
    · rw [hf] at hret; cases hret
    · rw [checkStakeKernelHash_search_eq env nBits blockFrom txPrev prevout nTimeTx 1 h0 m0
        Mreq hv ht hage hreq, searchLoop_one, stakeHash_eq_spec, kernelHashSpec_mod]
        at hret hH hM
      simp only [] at hM
      subst hM
      by_cases hge : kernelHashSpec env Mreq (toU32 (GetBlockTime blockFrom.1)) prevout nTimeTx
          ≥ stakeTarget env (stakedOutput txPrev prevout).nValue nBits
      · rw [if_pos hge] at hret; cases hret
      · rw [if_neg hge] at hH
        simp only [] at hH
        exact ⟨hv, hage, ht, hreq, hH.symm, hlt⟩

/-- The in/out parameters after a call that returns false. -/
theorem false_outputs (env : Env) (nBits : Nat)
    (blockFrom : CBlockIndex × List CBlockIndex) (txPrev : CTransaction)
    (prevout : COutPoint) (nTimeTx nHashDrift : Nat) (fCheck : Bool)
    (hashProofOfStake nStakeModifier : Nat)
    (hfalse : (CheckStakeKernelHash env nBits blockFrom txPrev prevout nTimeTx nHashDrift
      fCheck hashProofOfStake nStakeModifier).ret = false) :
    (CheckStakeKernelHash env nBits blockFrom txPrev prevout nTimeTx nHashDrift fCheck
        hashProofOfStake nStakeModifier).nTimeTx = nTimeTx
    ∧ (fCheck = true →
        CheckStakeKernelHash env nBits blockFrom txPrev prevout nTimeTx nHashDrift fCheck
          hashProofOfStake nStakeModifier
        = ⟨false, nTimeTx, hashProofOfStake, nStakeModifier⟩)
    ∧ (fCheck = false →
        CheckStakeKernelHash env nBits blockFrom txPrev prevout nTimeTx nHashDrift fCheck
            hashProofOfStake nStakeModifier
          = ⟨false, nTimeTx, hashProofOfStake, nStakeModifier⟩
        ∨ ∃ Mreq, ComputeNextStakeModifier env (blockFrom.1 :: blockFrom.2) = (true, Mreq)
            ∧ CheckStakeKernelHash env nBits blockFrom txPrev prevout nTimeTx nHashDrift fCheck
                hashProofOfStake nStakeModifier
              = ⟨false, nTimeTx,
                  if nHashDrift = 0 then hashProofOfStake
                  else kernelHashSpec env Mreq (toU32 (GetBlockTime blockFrom.1)) prevout
                    ((nTimeTx + (nHashDrift - 1)) % 2 ^ 32), Mreq⟩) := by
  cases fCheck with
  | true =>
    have h := check_mode_outputs env nBits blockFrom txPrev prevout nTimeTx nHashDrift
      hashProofOfStake nStakeModifier
    rw [hfalse] at h
    refine ⟨by rw [h], fun _ => h, fun h' => by cases h'⟩
  | false =>
    rcases search_mode_cases env nBits blockFrom txPrev prevout nTimeTx nHashDrift
      hashProofOfStake nStakeModifier with hf | ⟨hv, ht, hage, Mreq, hreq⟩
    · exact ⟨by rw [hf], fun h' => (by cases h'), fun _ => Or.inl hf⟩
    · have heq := checkStakeKernelHash_search_eq env nBits blockFrom txPrev prevout nTimeTx
        nHashDrift hashProofOfStake nStakeModifier Mreq hv ht hage hreq
      rw [heq] at hfalse
      simp only [] at hfalse
      obtain ⟨h1, h2⟩ := (searchLoop_spec env (leBytes 8 Mreq) prevout
        (toU32 (GetBlockTime blockFrom.1))
        (stakeTarget env (stakedOutput txPrev prevout).nValue nBits) nTimeTx nHashDrift 0
        hashProofOfStake).2.2 hfalse
      simp only [stakeHash_eq_spec, Nat.zero_add] at h2
      have hout : CheckStakeKernelHash env nBits blockFrom txPrev prevout nTimeTx nHashDrift
          false hashProofOfStake nStakeModifier
          = ⟨false, nTimeTx,
              if nHashDrift = 0 then hashProofOfStake
              else kernelHashSpec env Mreq (toU32 (GetBlockTime blockFrom.1)) prevout
                ((nTimeTx + (nHashDrift - 1)) % 2 ^ 32), Mreq⟩ := by
        rw [heq, hfalse, h1, h2]
      exact ⟨by rw [hout], fun h' => (by cases h'), fun _ => Or.inr ⟨Mreq, hreq, hout⟩⟩

/-- A value in the unsigned 32-bit range is not changed by the conversion. -/
theorem toU32_of_lt (z : Int) (h0 : 0 ≤ z) (h1 : z < 2 ^ 32) : toU32 z = z.toNat := by
  unfold toU32
  rw [Int.emod_eq_of_lt h0 h1]

/-- For a ratio of at least 1 the section divisor lies between 63 and `63 * R`. -/
theorem sectionDivisor_bounds (R : Int) (n : Nat) (hn : n ≤ 63) (hR : 1 ≤ R) :
    63 ≤ 63 + (63 - (n : Int)) * (R - 1) ∧ 63 + (63 - (n : Int)) * (R - 1) ≤ 63 * R := by
  have h1 : (0 : Int) ≤ 63 - (n : Int) := by omega
  have h2 : (0 : Int) ≤ R - 1 := by omega
  have h3 : (63 - (n : Int)) ≤ 63 := by omega
  constructor
  · nlinarith [mul_nonneg h1 h2]
  · nlinarith [mul_le_mul_of_nonneg_right h3 h2]

/-- Without wrap-around the section length is the integer quotient. -/
theorem section_eq_quotient (env : Env) (n : Nat) (hn : n ≤ 63)
    (hR : 1 ≤ Env.MODIFIER_INTERVAL_RATIO env)
    (hI : getIntervalVersion env * 63 < 2 ^ 32)
    (hd : 63 + (63 - (n : Int)) * ( Env.MODIFIER_INTERVAL_RATIO env - 1) < 2 ^ 32) :
    GetStakeModifierSelectionIntervalSection env (n : Int)
        = Int.tdiv ((getIntervalVersion env : Int) * 63)
            (63 + (63 - (n : Int)) * ( Env.MODIFIER_INTERVAL_RATIO env - 1))
      ∧ toU32 (63 + (63 - (n : Int)) * ( Env.MODIFIER_INTERVAL_RATIO env - 1)) ≠ 0 := by
  obtain ⟨hlo, -⟩ := sectionDivisor_bounds ( Env.MODIFIER_INTERVAL_RATIO env) n hn hR
  have hto := toU32_of_lt _ (by omega : (0 : Int) ≤ 63 + (63 - (n : Int))
    * ( Env.MODIFIER_INTERVAL_RATIO env - 1)) hd
  constructor
  · unfold GetStakeModifierSelectionIntervalSection
    rw [hto, Nat.mod_eq_of_lt hI, ← int_tdiv_natCast, Int.toNat_of_nonneg (by omega)]
    push_cast
    rfl
  · rw [hto]
    omega

/-- Without wrap-around of `I * 63` section 63 has length `I`. -/
theorem section_63 (env : Env) (hI : getIntervalVersion env * 63 < 2 ^ 32) :
    GetStakeModifierSelectionIntervalSection env 63 = (getIntervalVersion env : Int) := by
  unfold GetStakeModifierSelectionIntervalSection
  have h : toU32 (63 + (63 - 63) * ( Env.MODIFIER_INTERVAL_RATIO env - 1)) = 63 := by
    simp [toU32]
  rw [h, Nat.mod_eq_of_lt hI]
  norm_num

/-- A successful walk of `GetLastStakeModifier` met a block with the generated flag. -/
theorem getLastStakeModifier_some_flag (chain : List CBlockIndex) (r : Nat × Int)
    (h : GetLastStakeModifier chain = some r) :
    ∃ c ∈ chain, c.fGeneratedStakeModifier = true := by
  induction chain with
  | nil => simp [GetLastStakeModifier] at h
  | cons b rest ih =>
    by_cases hb : b.fGeneratedStakeModifier = true
    · exact ⟨b, List.mem_cons_self _ _, hb⟩
    · cases rest with
      | nil => simp [GetLastStakeModifier, hb] at h
      | cons c rest =>
        simp only [GetLastStakeModifier, hb, Bool.false_eq_true, if_false] at h
        obtain ⟨d, hd, hf⟩ := ih h
        exact ⟨d, List.mem_cons_of_mem _ hd, hf⟩

/-- The running minimum that starts from a block is a block. -/
theorem foldl_argAux_some (f : CBlockIndex → Nat) (l : List CBlockIndex) (c : CBlockIndex) :
    ∃ p, List.foldl (List.argAux fun b c => f b < f c) (some c) l = some p := by
  cases h : List.foldl (List.argAux fun b c => f b < f c) (some c) l with
  | none =>
    rw [List.foldl_argAux_eq_none] at h
    cases h.2
  | some p => exact ⟨p, rfl⟩

/-- The selector loop from a state that holds `c` is the running minimum over the examined candidates. -/
theorem selectLoop_seen_argmin (env : Env) (sel : List (Nat × CBlockIndex)) (stop : Int)
    (M : Nat) (cands : List (Int × Nat)) (c : CBlockIndex)
    (hres : ∀ item ∈ cands, ∃ b anc, env.mapBlockIndex item.2 = some (b, anc)) :
    selectLoop env sel stop M cands true (selectionHash env c M) (some c)
      = (true, List.foldl
          (List.argAux fun b c => selectionHash env b M < selectionHash env c M) (some c)
          (examined env sel stop cands true)) := by
  induction cands generalizing c with
  | nil => rfl
  | cons item rest ih =>
    obtain ⟨b, anc, hb⟩ := hres item (List.mem_cons_self _ _)
    have hres' : ∀ i ∈ rest, ∃ b anc, env.mapBlockIndex i.2 = some (b, anc) :=
      fun i hi => hres i (List.mem_cons_of_mem _ hi)
    unfold examined selectLoop
    simp only [hb, Bool.true_and, decide_eq_true_eq]
    by_cases h1 : GetBlockTime b > stop
    · rw [if_pos h1, if_pos h1]
      rfl
    · rw [if_neg h1, if_neg h1]
      by_cases h2 : mapCount sel b.hashBlock = true
      · rw [if_pos h2, if_pos h2]
        exact ih c hres'
      · rw [if_neg h2, if_neg h2]
        by_cases h3 : selectionHash env b M < selectionHash env c M
        · rw [if_pos h3, ih b hres']
          simp only [List.foldl_cons, List.argAux, h3, if_true]
        · rw [if_neg h3, if_neg (by decide), ih c hres']
          simp only [List.foldl_cons, List.argAux, h3, if_false]

/-- The selector loop from the initial state is the first minimum over the examined candidates. -/
theorem selectLoop_fresh_argmin (env : Env) (sel : List (Nat × CBlockIndex)) (stop : Int)
    (M : Nat) (cands : List (Int × Nat)) (best : Nat)
    (hres : ∀ item ∈ cands, ∃ b anc, env.mapBlockIndex item.2 = some (b, anc)) :
    selectLoop env sel stop M cands false best none
      = match List.argmin (fun c => selectionHash env c M)
          (examined env sel stop cands false) with
        | none => (false, none)
        | some p => (true, some p) := by
  induction cands with
  | nil => rfl
  | cons item rest ih =>
    obtain ⟨b, anc, hb⟩ := hres item (List.mem_cons_self _ _)
    have hres' : ∀ i ∈ rest, ∃ b anc, env.mapBlockIndex i.2 = some (b, anc) :=
      fun i hi => hres i (List.mem_cons_of_mem _ hi)
    unfold examined selectLoop
    simp only [hb, Bool.false_and, Bool.false_eq_true, if_false, Bool.not_false, if_true]
    by_cases h2 : mapCount sel b.hashBlock = true
    · rw [if_pos h2, if_pos h2]
      exact ih hres'
    · rw [if_neg h2, if_neg h2, selectLoop_seen_argmin env sel stop M rest b hres']
      obtain ⟨p, hp⟩ := foldl_argAux_some (fun c => selectionHash env c M)
        (examined env sel stop rest true) b
      have harg : List.argmin (fun c => selectionHash env c M)
          (b :: examined env sel stop rest true) = some p := by
        unfold List.argmin
        simpa [List.foldl_cons, List.argAux] using hp
      rw [harg]
      simp only []
      exact congrArg _ hp

/-- The examined candidates are the not-selected ones before the least stop index. -/
theorem examined_eq_take (env : Env) (sel : List (Nat × CBlockIndex)) (stop : Int)
    (cands : List (Int × Nat)) (cs : List CBlockIndex)
    (hres : List.Forall₂ (fun item c => ∃ anc, env.mapBlockIndex item.2 = some (c, anc))
      cands cs) :
    ∀ (seen : Bool) (j : Nat), j ≤ cs.length →
      (∀ i, i < j → ¬ stopsAtFrom seen sel stop cs i) →
      (j < cs.length → stopsAtFrom seen sel stop cs j) →
      examined env sel stop cands seen = (cs.take j).filter (notSelected sel) := by
  induction hres with
  | nil =>
    intro seen j hj _ _
    simp [examined]
  | @cons item c rest cs hhead _ ih =>
    intro seen j hj hleast hstop
    obtain ⟨anc, hlook⟩ := hhead
    unfold examined
    simp only [hlook]
    cases j with
    | zero =>
      obtain ⟨c', hc', ht, hseen⟩ := hstop (by simp)
      simp only [List.getElem?_cons_zero, Option.some.injEq] at hc'
      subst hc'
      have hs : seen = true := by
        rcases hseen with h | ⟨q, hq, -⟩
        · exact h
        · simp at hq
      simp [hs, ht]
    | succ j =>
      have hnobreak : ¬ ((seen && decide (GetBlockTime c > stop)) = true) := by
        intro hbr
        simp only [Bool.and_eq_true, decide_eq_true_eq] at hbr
        exact hleast 0 (by omega) ⟨c, by simp, hbr.2, Or.inl hbr.1⟩
      rw [if_neg hnobreak]
      have hj' : j ≤ cs.length := by simpa using hj
      by_cases h2 : mapCount sel c.hashBlock = true
      · rw [if_pos h2]
        have hns : notSelected sel c = false := by simp [notSelected, h2]
        rw [List.take_succ_cons, List.filter_cons_of_neg (by simp [hns])]
        apply ih seen j hj'
        · intro i hi hst
          obtain ⟨c', hc', ht, hseen⟩ := hst
          apply hleast (i + 1) (by omega)
          refine ⟨c', by simpa using hc', ht, ?_⟩
          rcases hseen with h | ⟨q, hq, hqn⟩
          · exact Or.inl h
          · exact Or.inr ⟨q, by rw [List.take_succ_cons]; exact List.mem_cons_of_mem _ hq, hqn⟩
        · intro hlt
          obtain ⟨c', hc', ht, hseen⟩ := hstop (by simpa using hlt)
          refine ⟨c', by simpa using hc', ht, ?_⟩
          rcases hseen with h | ⟨q, hq, hqn⟩
          · exact Or.inl h
          · rw [List.take_succ_cons] at hq
            rcases List.mem_cons.1 hq with rfl | hq
            · rw [hns] at hqn; cases hqn
            · exact Or.inr ⟨q, hq, hqn⟩
      · rw [if_neg h2]
        have hns : notSelected sel c = true := by simp [notSelected, h2]
        rw [List.take_succ_cons, List.filter_cons_of_pos hns]
        congr 1
        apply ih true j hj'
        · intro i hi hst
          obtain ⟨c', hc', ht, -⟩ := hst
          apply hleast (i + 1) (by omega)
          exact ⟨c', by simpa using hc', ht,
            Or.inr ⟨c, by rw [List.take_succ_cons]; exact List.mem_cons_self _ _, hns⟩⟩
        · intro hlt
          obtain ⟨c', hc', ht, -⟩ := hstop (by simpa using hlt)
          exact ⟨c', by simpa using hc', ht, Or.inl rfl⟩

/-- The stop condition from the initial state is the one of the spec. -/
theorem stopsAtFrom_false (sel : List (Nat × CBlockIndex)) (stop : Int)
    (cs : List CBlockIndex) (j : Nat) :
    stopsAtFrom false sel stop cs j ↔ stopsAt sel stop cs j := by
  unfold stopsAtFrom stopsAt
  simp

/-- Candidates matched with index entries all resolve. -/
theorem forall₂_resolves (env : Env) (cands : List (Int × Nat)) (cs : List CBlockIndex)
    (hres : List.Forall₂ (fun item c => ∃ anc, env.mapBlockIndex item.2 = some (c, anc))
      cands cs) :
    ∀ item ∈ cands, ∃ b anc, env.mapBlockIndex item.2 = some (b, anc) := by
  induction hres with
  | nil => simp
  | cons hhead _ ih =>
    intro item hi
    rcases List.mem_cons.1 hi with rfl | hi
    · obtain ⟨anc, h⟩ := hhead
      exact ⟨_, anc, h⟩
    · exact ih item hi

/-- The selection hash computed by the selector is the selection hash of the spec. -/
theorem selectionHash_eq_spec (env : Env) (c : CBlockIndex) (M : Nat) :
    selectionHash env c M = selectionHashSpec env c M := by
  unfold selectionHash selectionHashSpec
  simp only [Nat.shiftRight_eq_div_pow]

/-- The kernel input of the spec has 52 bytes. -/
theorem kernelInputSpec_length (M nTimeBlockFrom prevoutIndex prevoutHash nTryTime : Nat) :
    (kernelInputSpec M nTimeBlockFrom prevoutIndex prevoutHash nTryTime).length = 52 := by
  simp [kernelInputSpec, leBytes_length]

/-- The selector computes the selection of the spec. -/
theorem select_eq_spec (env : Env) (cands : List (Int × Nat))
    (sel : List (Nat × CBlockIndex)) (stop : Int) (M : Nat) (cs : List CBlockIndex) (j : Nat)
    (hres : List.Forall₂ (fun item c => ∃ anc, env.mapBlockIndex item.2 = some (c, anc))
      cands cs)
    (hj : j ≤ cs.length)
    (hleast : ∀ i, i < j → ¬ stopsAt sel stop cs i)
    (hstop : j < cs.length → stopsAt sel stop cs j) :
    SelectBlockFromCandidates env cands sel stop M
      = match selectSpec env sel M cs j with
        | none => (false, none)
        | some p => (true, some p) := by
  have hhash : (fun c => selectionHashSpec env c M) = (fun c => selectionHash env c M) :=
    funext fun c => (selectionHash_eq_spec env c M).symm
  unfold SelectBlockFromCandidates selectSpec
  rw [hhash, selectLoop_fresh_argmin env sel stop M cands 0
      (forall₂_resolves env cands cs hres),
    examined_eq_take env sel stop cands cs hres false j hj
      (fun i hi h => hleast i hi ((stopsAtFrom_false sel stop cs i).1 h))
      (fun h => (stopsAtFrom_false sel stop cs j).2 (hstop h))]

/-- The pair order is the lexicographic order. -/
theorem pairLt_eq_true_iff (env : Env) (a b : Int × Nat) :
    pairLt env a b = true ↔ a.1 < b.1 ∨ (a.1 = b.1 ∧ env.uint256_lt a.2 b.2 = true) := by
  unfold pairLt
  simp only [Bool.or_eq_true, decide_eq_true_eq, Bool.and_eq_true, Bool.not_eq_true',
    decide_eq_false_iff_not, not_lt]
  constructor
  · rintro (h | ⟨h1, h2⟩)
    · exact Or.inl h
    · rcases lt_or_eq_of_le h1 with h | h
      · exact Or.inl h
      · exact Or.inr ⟨h, h2⟩
  · rintro (h | ⟨h1, h2⟩)
    · exact Or.inl h
    · exact Or.inr ⟨le_of_eq h1, h2⟩

/-- The negation of the pair order. -/
theorem pairLt_eq_false_iff (env : Env) (a b : Int × Nat) :
    pairLt env a b = false ↔ b.1 < a.1 ∨ (b.1 = a.1 ∧ env.uint256_lt a.2 b.2 = false) := by
  rw [← Bool.not_eq_true, pairLt_eq_true_iff]
  constructor
  · intro h
    push_neg at h
    rcases lt_trichotomy a.1 b.1 with h1 | h1 | h1
    · have := h.1; omega
    · exact Or.inr ⟨h1.symm, by simpa using h.2 h1⟩
    · exact Or.inl h1
  · rintro (h | ⟨h1, h2⟩) hcon
    · rcases hcon with h' | ⟨h', -⟩ <;> omega
    · rcases hcon with h' | ⟨-, h'⟩
      · omega
      · rw [h2] at h'; cases h'

/-- The pair order is asymmetric when the hash order is a strict total order. -/
theorem pairLe_total (env : Env) (htotal : uint256StrictTotal env) (a b : Int × Nat) :
    pairLt env b a = false ∨ pairLt env a b = false := by
  rw [pairLt_eq_false_iff, pairLt_eq_false_iff]
  rcases lt_trichotomy a.1 b.1 with h | h | h
  · exact Or.inl (Or.inl h)
  · cases hab : env.uint256_lt a.2 b.2 with
    | false => exact Or.inr (Or.inr ⟨h.symm, rfl⟩)
    | true => exact Or.inl (Or.inr ⟨h, htotal.1 _ _ hab⟩)
  · exact Or.inr (Or.inl h)

/-- The negation of a strict total hash order is transitive. -/
theorem uint256_negTrans (env : Env) (htotal : uint256StrictTotal env) (a b c : Nat)
    (hba : env.uint256_lt b a = false) (hcb : env.uint256_lt c b = false) :
    env.uint256_lt c a = false := by
  obtain ⟨hasym, htrans, htri⟩ := htotal
  cases hca : env.uint256_lt c a with
  | false => rfl
  | true =>
    exfalso
    cases hbc : env.uint256_lt b c with
    | true =>
      have := htrans b c a hbc hca
      rw [hba] at this; cases this
    | false =>
      have hbceq : c = b := htri c b hcb hbc
      rw [hbceq, hba] at hca
      cases hca

/-- The non-strict pair order is transitive. -/
theorem pairLe_trans (env : Env) (htotal : uint256StrictTotal env) (a b c : Int × Nat)
    (hab : pairLt env b a = false) (hbc : pairLt env c b = false) :
    pairLt env c a = false := by
  rw [pairLt_eq_false_iff] at hab hbc ⊢
  rcases hab with h1 | ⟨h1, h1'⟩ <;> rcases hbc with h2 | ⟨h2, h2'⟩
  · exact Or.inl (by omega)
  · exact Or.inl (by omega)
  · exact Or.inl (by omega)
  · exact Or.inr ⟨by omega, uint256_negTrans env htotal _ _ _ h1' h2'⟩

/-- The candidate list is in descending lexicographic order. -/
theorem sortedCandidates_descending (env : Env) (htotal : uint256StrictTotal env)
    (start : Int) (chain : List CBlockIndex) :
    (sortedCandidates env start chain).Pairwise
      (fun a b => b.1 < a.1 ∨ (b.1 = a.1 ∧ env.uint256_lt a.2 b.2 = false)) := by
  haveI : IsTotal (Int × Nat) (fun a b => pairLt env b a = false) :=
    ⟨fun a b => pairLe_total env htotal a b⟩
  haveI : IsTrans (Int × Nat) (fun a b => pairLt env b a = false) :=
    ⟨fun a b c => pairLe_trans env htotal a b c⟩
  have hs := List.sorted_insertionSort (fun a b => pairLt env b a = false)
    (gatherCandidates start chain)
  unfold sortedCandidates
  rw [List.pairwise_reverse]
  refine List.Pairwise.imp ?_ hs
  intro a b hab
  exact (pairLt_eq_false_iff env b a).1 hab

/-- A left fold of additions is the sum. -/
theorem foldl_add_eq_sum (g : Int → Int) (l : List Int) (acc : Int) :
    l.foldl (fun a n => a + g n) acc = acc + (l.map g).sum := by
  induction l generalizing acc with
  | nil => simp
  | cons x l ih => simp [List.foldl_cons, ih, add_assoc]

/-- The selection interval is the sum of the 64 section lengths. -/
theorem selectionInterval_eq_sum (env : Env) :
    GetStakeModifierSelectionInterval env
      = ((List.range 64).map
          (fun n => GetStakeModifierSelectionIntervalSection env (n : Int))).sum := by
  unfold GetStakeModifierSelectionInterval
  rw [foldl_add_eq_sum (fun n => GetStakeModifierSelectionIntervalSection env n)]
  have hl : (do let a ← List.range 64; pure (a : Int) : List Int)
      = (List.range 64).map (fun n => (n : Int)) := by
    simp [List.bind_eq_flatMap, List.flatMap, List.pure_def]
  rw [hl, List.map_map, zero_add]

/-- The selection interval is not negative. -/
theorem selectionInterval_nonneg (env : Env) : 0 ≤ GetStakeModifierSelectionInterval env := by
  rw [selectionInterval_eq_sum]
  apply List.sum_nonneg
  intro x hx
  obtain ⟨n, -, rfl⟩ := List.mem_map.1 hx
  unfold GetStakeModifierSelectionIntervalSection
  exact Int.ofNat_nonneg _

/-- The selection window starts no later than the time of `prev`. -/
theorem selectionIntervalStart_le (env : Env) (prev : CBlockIndex) :
    selectionIntervalStart env prev ≤ GetBlockTime prev := by
  unfold selectionIntervalStart GetBlockTime
  rw [int_tdiv_natCast]
  have h1 : ((prev.nTime / getIntervalVersion env : Nat) : Int) * (getIntervalVersion env : Int)
      ≤ (prev.nTime : Int) := by
    exact_mod_cast Nat.div_mul_le_self prev.nTime (getIntervalVersion env)
  have h2 := selectionInterval_nonneg env
  omega

/-- The block `prev` is always a candidate. -/
theorem prev_mem_sortedCandidates (env : Env) (prev : CBlockIndex) (pprev : List CBlockIndex) :
    (GetBlockTime prev, prev.hashBlock)
      ∈ sortedCandidates env (selectionIntervalStart env prev) (prev :: pprev) := by
  rw [(sortedCandidates_perm env _ _).mem_iff]
  unfold gatherCandidates
  rw [if_pos (selectionIntervalStart_le env prev)]
  exact List.mem_cons_self _ _

/-- The numeric order of the example environment is a strict total order. -/
theorem exEnv_strictTotal : uint256StrictTotal exEnv := by
  refine ⟨?_, ?_, ?_⟩
  · intro a b h
    simp only [exEnv, decide_eq_true_eq, decide_eq_false_iff_not] at h ⊢
    omega
  · intro a b c h1 h2
    simp only [exEnv, decide_eq_true_eq] at h1 h2 ⊢
    omega
  · intro a b h1 h2
    simp only [exEnv, decide_eq_false_iff_not] at h1 h2
    omega

/-! ## Theorems -/

/-- Claim C1. In check mode (`fCheck = true`) `CheckStakeKernelHash` returns true if and
only if: the staked value is at least `MIN_STAKE_AMOUNT`; the try time is at least the
time of the block holding the staked output plus `MinStakeAge`, and at least that
time; `ComputeNextStakeModifier` on that block succeeds with exactly the supplied
modifier; the supplied proof hash is the kernel hash recomputed from the modifier,
the block time, the outpoint and the try time; and the proof hash, as a 256-bit
number, is strictly below the target `(value_in / 100) * expand_compact(bits)`. -/
theorem checkStakeKernelHash_check_iff (env : Env) (nBits : Nat)
    (blockFrom : CBlockIndex × List CBlockIndex) (txPrev : CTransaction)
    (prevout : COutPoint) (nTimeTx nHashDrift hashProofOfStake nStakeModifier : Nat) :
    (CheckStakeKernelHash env nBits blockFrom txPrev prevout nTimeTx nHashDrift true
        hashProofOfStake nStakeModifier).ret = true ↔
      (env.MIN_STAKE_AMOUNT ≤ (stakedOutput txPrev prevout).nValue
        ∧ (toU32 (GetBlockTime blockFrom.1) : Int) + env.MinStakeAge ≤ (nTimeTx : Int)
        ∧ toU32 (GetBlockTime blockFrom.1) ≤ nTimeTx
        ∧ ComputeNextStakeModifier env (blockFrom.1 :: blockFrom.2) = (true, nStakeModifier)
        ∧ hashProofOfStake = kernelHashSpec env nStakeModifier
            (toU32 (GetBlockTime blockFrom.1)) prevout nTimeTx
        ∧ hashProofOfStake < arith_uint256_mul
            (toU64 (stakedOutput txPrev prevout).nValue / 100) (env.SetCompact nBits)) :=
  check_mode_iff env nBits blockFrom txPrev prevout nTimeTx nHashDrift hashProofOfStake
    nStakeModifier

/-- Claim C1 at a concrete input: a valid check on the example chain. -/
theorem checkStakeKernelHash_check_iff_witness :
    (CheckStakeKernelHash exEnv 0 (exBlock 1 true true true, [exBlock 0 true false false])
      ⟨[⟨500, [1]⟩, ⟨50, [0]⟩]⟩ ⟨9, 0⟩ 2000 0 true 466 7).ret = true :=
  (checkStakeKernelHash_check_iff exEnv 0
    (exBlock 1 true true true, [exBlock 0 true false false])
    ⟨[⟨500, [1]⟩, ⟨50, [0]⟩]⟩ ⟨9, 0⟩ 2000 0 466 7).2
    ⟨by decide, by decide, by decide, by decide, by decide, by decide⟩

/-- Claim C2. `CheckProofOfStake` returns true if and only if the block signature is
non-empty, the staked transaction is found, its block is in the block index, the
solver succeeds with shape P2PKH or P2PK, the block signature verifies under the key
id derived from that script, and `CheckStakeKernelHash` in check mode, called with
the block's `nBits`, `nTime`, `hashProofOfStake` and `nStakeModifier` (drift 0),
returns true. In particular, when the lookups succeed and the recomputed modifier
differs from the recorded one, the block is rejected. -/
theorem checkProofOfStake_iff (env : Env) (block : CBlockHeader) :
    (CheckProofOfStake env block = true ↔
      block.posBlockSig ≠ [] ∧
      ∃ txinPrev txinHashBlock pindex_tx whichType vSolutions key_id,
        env.GetTransaction block.StakeInput.hash = some (txinPrev, txinHashBlock)
        ∧ env.mapBlockIndex txinHashBlock = some pindex_tx
        ∧ env.Solver (stakedOutput txinPrev block.StakeInput).scriptPubKey
            = some (whichType, vSolutions)
        ∧ ((whichType = txnouttype.TX_PUBKEYHASH
              ∧ key_id = env.CKeyID_uint160 (vSolutions.headD []))
            ∨ (whichType = txnouttype.TX_PUBKEY
              ∧ key_id = env.CPubKey_GetID (vSolutions.headD [])))
        ∧ env.CheckBlockSignature block key_id = true
        ∧ (CheckStakeKernelHash env block.nBits pindex_tx txinPrev block.StakeInput
            block.nTime 0 true block.hashProofOfStake block.nStakeModifier).ret = true)
    ∧ (∀ txinPrev txinHashBlock pindex_tx M,
        env.GetTransaction block.StakeInput.hash = some (txinPrev, txinHashBlock) →
        env.mapBlockIndex txinHashBlock = some pindex_tx →
        ComputeNextStakeModifier env (pindex_tx.1 :: pindex_tx.2) = (true, M) →
        block.nStakeModifier ≠ M →
        CheckProofOfStake env block = false) := by
  have hiff : (CheckProofOfStake env block = true ↔
      block.posBlockSig ≠ [] ∧
      ∃ txinPrev txinHashBlock pindex_tx whichType vSolutions key_id,
        env.GetTransaction block.StakeInput.hash = some (txinPrev, txinHashBlock)
        ∧ env.mapBlockIndex txinHashBlock = some pindex_tx
        ∧ env.Solver (stakedOutput txinPrev block.StakeInput).scriptPubKey
            = some (whichType, vSolutions)
        ∧ ((whichType = txnouttype.TX_PUBKEYHASH
              ∧ key_id = env.CKeyID_uint160 (vSolutions.headD []))
            ∨ (whichType = txnouttype.TX_PUBKEY
              ∧ key_id = env.CPubKey_GetID (vSolutions.headD [])))
        ∧ env.CheckBlockSignature block key_id = true
        ∧ (CheckStakeKernelHash env block.nBits pindex_tx txinPrev block.StakeInput
            block.nTime 0 true block.hashProofOfStake block.nStakeModifier).ret = true) := by
    unfold CheckProofOfStake
    by_cases hsig : block.posBlockSig = []
    · simp [hsig]
    have hsig' : block.posBlockSig.isEmpty = false := by
      cases h : block.posBlockSig with
      | nil => exact absurd h hsig
      | cons a l => rfl
    simp only [hsig', Bool.false_eq_true, if_false, ne_eq, hsig, not_false_eq_true, true_and]
    rcases htx : env.GetTransaction block.StakeInput.hash with _ | ⟨txinPrev, txinHashBlock⟩
    · simp
    rcases hidx : env.mapBlockIndex txinHashBlock with _ | pindex_tx
    · simp [hidx]
    rcases hsol : env.Solver (stakedOutput txinPrev block.StakeInput).scriptPubKey
      with _ | ⟨whichType, vSolutions⟩
    · simp [hidx, hsol]
    simp only [hidx, hsol, Option.some.injEq, Prod.mk.injEq]
    unfold stakeKeyId
    by_cases hk1 : whichType = txnouttype.TX_PUBKEYHASH
    · subst hk1
      rw [if_pos rfl]
      by_cases hs : env.CheckBlockSignature block (env.CKeyID_uint160 (vSolutions.headD [])) = true
      · simp only [hs, Bool.not_true, Bool.false_eq_true, if_false]
        constructor
        · intro h
          exact ⟨txinPrev, txinHashBlock, pindex_tx, _, vSolutions, _, ⟨rfl, rfl⟩, hidx, hsol,
            Or.inl ⟨rfl, rfl⟩, hs, h⟩
        · rintro ⟨a, b, c, d, e, f, ⟨rfl, rfl⟩, h2, h3, h4, h5, h6⟩
          rw [hidx] at h2; cases h2
          rw [hsol] at h3; cases h3
          exact h6
      · simp only [hs, Bool.not_false, if_true]
        constructor
        · intro h; cases h
        · rintro ⟨a, b, c, d, e, f, ⟨rfl, rfl⟩, h2, h3, h4, h5, h6⟩
          rw [hsol] at h3; cases h3
          rcases h4 with ⟨-, rfl⟩ | ⟨h4, -⟩
          · exact absurd h5 hs
          · cases h4
    · by_cases hk2 : whichType = txnouttype.TX_PUBKEY
      · subst hk2
        rw [if_neg hk1, if_pos rfl]
        by_cases hs : env.CheckBlockSignature block (env.CPubKey_GetID (vSolutions.headD [])) = true
        · simp only [hs, Bool.not_true, Bool.false_eq_true, if_false]
          constructor
          · intro h
            exact ⟨txinPrev, txinHashBlock, pindex_tx, _, vSolutions, _, ⟨rfl, rfl⟩, hidx, hsol,
              Or.inr ⟨rfl, rfl⟩, hs, h⟩
          · rintro ⟨a, b, c, d, e, f, ⟨rfl, rfl⟩, h2, h3, h4, h5, h6⟩
            rw [hidx] at h2; cases h2
            rw [hsol] at h3; cases h3
            exact h6
        · simp only [hs, Bool.not_false, if_true]
          constructor
          · intro h; cases h
          · rintro ⟨a, b, c, d, e, f, ⟨rfl, rfl⟩, h2, h3, h4, h5, h6⟩
            rw [hsol] at h3; cases h3
            rcases h4 with ⟨h4, -⟩ | ⟨-, rfl⟩
            · cases h4
            · exact absurd h5 hs
      · rw [if_neg hk1, if_neg hk2]
        simp only []
        constructor
        · intro h; cases h
        · rintro ⟨a, b, c, d, e, f, ⟨rfl, rfl⟩, h2, h3, h4, h5, h6⟩
          rw [hsol] at h3; cases h3
          rcases h4 with ⟨h4, -⟩ | ⟨h4, -⟩
          · exact absurd h4 hk1
          · exact absurd h4 hk2
  refine ⟨hiff, ?_⟩
  intro txinPrev txinHashBlock pindex_tx M htx hidx hM hne
  rw [← Bool.not_eq_true, hiff]
  rintro ⟨-, a, b, c, d, e, f, h1, h2, -, -, -, h6⟩
  rw [htx] at h1; cases h1
  rw [hidx] at h2; cases h2
  have := ((check_mode_iff _ _ _ _ _ _ _ _ _).1 h6).2.2.2.1
  rw [hM] at this
  cases this
  exact hne rfl

/-- Claim C2 at concrete inputs: the example header is accepted, and the same header with another recorded modifier is rejected. -/
theorem checkProofOfStake_iff_witness :
    CheckProofOfStake exEnv exHeader = true
      ∧ CheckProofOfStake exEnv ⟨0, 2000, [5], ⟨9, 0⟩, exHeader.hashProofOfStake, 8⟩ = false :=
  ⟨by decide,
    (checkProofOfStake_iff exEnv ⟨0, 2000, [5], ⟨9, 0⟩, exHeader.hashProofOfStake, 8⟩).2
      ⟨[⟨500, [1]⟩, ⟨50, [0]⟩]⟩ 2 (exBlock 1 true true true, [exBlock 0 true false false]) 7
      (by decide) (by decide) (by decide) (by decide)⟩

/-- Claim C3. In search mode (`fCheck = false`), when the eligibility checks pass and
`ComputeNextStakeModifier` on the block holding the staked output succeeds with
`Mreq`: the result is true if and only if some `i < nHashDrift` has its kernel hash
at time `nTimeTx + i` (32-bit addition) strictly below the target; on success the
written-back time is `nTimeTx + i` for the least such `i`, the written-back proof
hash is the kernel hash at that time and the written-back modifier is `Mreq`; with
`nHashDrift = 0` the result is false. -/
theorem checkStakeKernelHash_search (env : Env) (nBits : Nat)
    (blockFrom : CBlockIndex × List CBlockIndex) (txPrev : CTransaction)
    (prevout : COutPoint) (nTimeTx nHashDrift hashProofOfStake nStakeModifier Mreq : Nat)
    (hvalue : env.MIN_STAKE_AMOUNT ≤ (stakedOutput txPrev prevout).nValue)
    (htime : toU32 (GetBlockTime blockFrom.1) ≤ nTimeTx)
    (hage : (toU32 (GetBlockTime blockFrom.1) : Int) + env.MinStakeAge ≤ (nTimeTx : Int))
    (hM : ComputeNextStakeModifier env (blockFrom.1 :: blockFrom.2) = (true, Mreq)) :
    ((CheckStakeKernelHash env nBits blockFrom txPrev prevout nTimeTx nHashDrift false
          hashProofOfStake nStakeModifier).ret = true ↔
        ∃ i, i < nHashDrift ∧
          kernelHashSpec env Mreq (toU32 (GetBlockTime blockFrom.1)) prevout
              ((nTimeTx + i) % 2 ^ 32)
            < stakeTarget env (stakedOutput txPrev prevout).nValue nBits)
    ∧ ((CheckStakeKernelHash env nBits blockFrom txPrev prevout nTimeTx nHashDrift false
          hashProofOfStake nStakeModifier).ret = true →
        ∃ i, i < nHashDrift
          ∧ kernelHashSpec env Mreq (toU32 (GetBlockTime blockFrom.1)) prevout
                ((nTimeTx + i) % 2 ^ 32)
              < stakeTarget env (stakedOutput txPrev prevout).nValue nBits
          ∧ (∀ j, j < i →
              ¬ kernelHashSpec env Mreq (toU32 (GetBlockTime blockFrom.1)) prevout
                  ((nTimeTx + j) % 2 ^ 32)
                < stakeTarget env (stakedOutput txPrev prevout).nValue nBits)
          ∧ CheckStakeKernelHash env nBits blockFrom txPrev prevout nTimeTx nHashDrift false
                hashProofOfStake nStakeModifier
              = ⟨true, (nTimeTx + i) % 2 ^ 32,
                  kernelHashSpec env Mreq (toU32 (GetBlockTime blockFrom.1)) prevout
                    ((nTimeTx + i) % 2 ^ 32), Mreq⟩)
    ∧ (nHashDrift = 0 →
        (CheckStakeKernelHash env nBits blockFrom txPrev prevout nTimeTx nHashDrift false
          hashProofOfStake nStakeModifier).ret = false) := by
  rw [checkStakeKernelHash_search_eq env nBits blockFrom txPrev prevout nTimeTx nHashDrift
    hashProofOfStake nStakeModifier Mreq hvalue htime hage hM]
  have hs := searchLoop_spec env (leBytes 8 Mreq) prevout (toU32 (GetBlockTime blockFrom.1))
    (stakeTarget env (stakedOutput txPrev prevout).nValue nBits) nTimeTx nHashDrift 0
    hashProofOfStake
  simp only [stakeHash_eq_spec, Nat.zero_le, true_and, Nat.zero_add] at hs
  obtain ⟨hs1, hs2, hs3⟩ := hs
  refine ⟨hs1, ?_, ?_⟩
  · intro h
    obtain ⟨i, hi, hlt, hleast, ht, hh⟩ := hs2 h
    refine ⟨i, hi, hlt, fun j hj => hleast j trivial hj, ?_⟩
    simp only [KernelOut.mk.injEq, and_true]
    exact ⟨h, ht, hh⟩
  · intro h0
    subst h0
    rfl

/-- Claim C3 at a concrete input: the search from time 2000 succeeds at the third try and writes back time 2002; with drift 0 it fails. -/
theorem checkStakeKernelHash_search_witness :
    CheckStakeKernelHash (exEnvWith exHashTime) 0
        (exBlock 1 true true true, [exBlock 0 true false false])
        ⟨[⟨500, [1]⟩, ⟨50, [0]⟩]⟩ ⟨9, 0⟩ 2000 3 false 0 0 = ⟨true, 2002, 0, 7⟩
      ∧ (CheckStakeKernelHash (exEnvWith exHashTime) 0
        (exBlock 1 true true true, [exBlock 0 true false false])
        ⟨[⟨500, [1]⟩, ⟨50, [0]⟩]⟩ ⟨9, 0⟩ 2000 0 false 0 0).ret = false := by
  have h := checkStakeKernelHash_search (exEnvWith exHashTime) 0
    (exBlock 1 true true true, [exBlock 0 true false false])
    ⟨[⟨500, [1]⟩, ⟨50, [0]⟩]⟩ ⟨9, 0⟩ 2000 3 0 0 7 (by decide) (by decide) (by decide)
    (by decide)
  have h0 := checkStakeKernelHash_search (exEnvWith exHashTime) 0
    (exBlock 1 true true true, [exBlock 0 true false false])
    ⟨[⟨500, [1]⟩, ⟨50, [0]⟩]⟩ ⟨9, 0⟩ 2000 0 0 0 7 (by decide) (by decide) (by decide)
    (by decide)
  refine ⟨?_, h0.2.2 rfl⟩
  obtain ⟨i, hi, hlt, hleast, hout⟩ := h.2.1 (h.1.2 ⟨2, by decide, by decide⟩)
  have hi2 : i = 2 := by
    have h0 : ¬ i = 0 := by
      rintro rfl
      revert hlt; decide
    have h1 : ¬ i = 1 := by
      rintro rfl
      revert hlt; decide
    omega
  subst hi2
  rw [hout]
  decide

/-- Claim C4. Past the eligibility checks, with `Mreq` the modifier computed for the
block holding the staked output, the byte string that `CheckStakeKernelHash` hashes is
the 52-byte concatenation of the modifier (8 bytes), the time of that block (4), the
outpoint index (4), the outpoint hash (32) and the try time (4), each field in
little-endian order, whatever the hash function is: check mode accepts the proof hash
exactly when it is the hash of that string at `nTimeTx` and is below the target; a
successful search writes back the hash of that string at the try time it writes back;
a search of positive drift that fails leaves the hash of that string at its last try
time, so nothing appended by earlier iterations is hashed. `leBytes` has the stated
length, bytes below 256, and decodes base 256 to the value. -/
theorem kernel_hash_input (env : Env) (nBits : Nat)
    (blockFrom : CBlockIndex × List CBlockIndex) (txPrev : CTransaction)
    (prevout : COutPoint) (nTimeTx nHashDrift hashProofOfStake nStakeModifier Mreq : Nat)
    (hvalue : env.MIN_STAKE_AMOUNT ≤ (stakedOutput txPrev prevout).nValue)
    (htime : toU32 (GetBlockTime blockFrom.1) ≤ nTimeTx)
    (hage : (toU32 (GetBlockTime blockFrom.1) : Int) + env.MinStakeAge ≤ (nTimeTx : Int))
    (hM : ComputeNextStakeModifier env (blockFrom.1 :: blockFrom.2) = (true, Mreq)) :
    ((CheckStakeKernelHash env nBits blockFrom txPrev prevout nTimeTx nHashDrift true
          hashProofOfStake Mreq).ret = true ↔
        hashProofOfStake = env.Hash (leBytes 8 Mreq
            ++ leBytes 4 (toU32 (GetBlockTime blockFrom.1)) ++ leBytes 4 prevout.n
            ++ leBytes 32 prevout.hash ++ leBytes 4 nTimeTx)
          ∧ hashProofOfStake < stakeTarget env (stakedOutput txPrev prevout).nValue nBits)
    ∧ ((CheckStakeKernelHash env nBits blockFrom txPrev prevout nTimeTx nHashDrift false
          hashProofOfStake nStakeModifier).ret = true →
        ∃ i, i < nHashDrift
          ∧ (CheckStakeKernelHash env nBits blockFrom txPrev prevout nTimeTx nHashDrift false
              hashProofOfStake nStakeModifier).nTimeTx = (nTimeTx + i) % 2 ^ 32
          ∧ (CheckStakeKernelHash env nBits blockFrom txPrev prevout nTimeTx nHashDrift false
              hashProofOfStake nStakeModifier).hashProofOfStake
            = env.Hash (leBytes 8 Mreq
                ++ leBytes 4 (toU32 (GetBlockTime blockFrom.1)) ++ leBytes 4 prevout.n
                ++ leBytes 32 prevout.hash ++ leBytes 4 ((nTimeTx + i) % 2 ^ 32)))
    ∧ ((CheckStakeKernelHash env nBits blockFrom txPrev prevout nTimeTx nHashDrift false
          hashProofOfStake nStakeModifier).ret = false → 0 < nHashDrift →
        (CheckStakeKernelHash env nBits blockFrom txPrev prevout nTimeTx nHashDrift false
            hashProofOfStake nStakeModifier).hashProofOfStake
          = env.Hash (leBytes 8 Mreq
              ++ leBytes 4 (toU32 (GetBlockTime blockFrom.1)) ++ leBytes 4 prevout.n
              ++ leBytes 32 prevout.hash
              ++ leBytes 4 ((nTimeTx + (nHashDrift - 1)) % 2 ^ 32)))
    ∧ (∀ t, (leBytes 8 Mreq ++ leBytes 4 (toU32 (GetBlockTime blockFrom.1))
          ++ leBytes 4 prevout.n ++ leBytes 32 prevout.hash ++ leBytes 4 t).length = 52)
    ∧ (∀ n v, (leBytes n v).length = n ∧ (∀ b ∈ leBytes n v, b < 256)
        ∧ Nat.ofDigits 256 (leBytes n v) = v % 256 ^ n) := by
  have hcheck : (CheckStakeKernelHash env nBits blockFrom txPrev prevout nTimeTx nHashDrift
        true hashProofOfStake Mreq).ret = true ↔
      hashProofOfStake = env.Hash (leBytes 8 Mreq
          ++ leBytes 4 (toU32 (GetBlockTime blockFrom.1)) ++ leBytes 4 prevout.n
          ++ leBytes 32 prevout.hash ++ leBytes 4 nTimeTx)
        ∧ hashProofOfStake < stakeTarget env (stakedOutput txPrev prevout).nValue nBits := by
    rw [check_mode_iff]
    constructor
    · rintro ⟨-, -, -, -, h5, h6⟩
      exact ⟨h5, h6⟩
    · rintro ⟨h5, h6⟩
      exact ⟨hvalue, hage, htime, hM, h5, h6⟩
  have hsearch := checkStakeKernelHash_search_eq env nBits blockFrom txPrev prevout nTimeTx
    nHashDrift hashProofOfStake nStakeModifier Mreq hvalue htime hage hM
  have hloop := searchLoop_spec env (leBytes 8 Mreq) prevout (toU32 (GetBlockTime blockFrom.1))
    (stakeTarget env (stakedOutput txPrev prevout).nValue nBits) nTimeTx nHashDrift 0
    hashProofOfStake
  simp only [Nat.zero_le, true_and, Nat.zero_add] at hloop
  obtain ⟨-, hs2, hs3⟩ := hloop
  refine ⟨hcheck, ?_, ?_, ?_, ?_⟩
  · intro hret
    rw [hsearch] at hret ⊢
    obtain ⟨i, hi, -, -, ht, hh⟩ := hs2 hret
    exact ⟨i, hi, ht, hh⟩
  · intro hret hpos
    rw [hsearch] at hret ⊢
    have h := (hs3 hret).2
    rw [if_neg (by omega)] at h
    exact h
  · intro t
    simp [leBytes_length]
  · exact fun n v => ⟨leBytes_length n v, leBytes_lt n v, leBytes_ofDigits n v⟩

/-- Claim C4 at concrete inputs: on the example chain the proof hash 466 is accepted in
check mode, and a search of drift 2 that finds nothing leaves the hash of the 52 bytes
at its second try time 2001. -/
theorem kernel_hash_input_witness :
    (CheckStakeKernelHash exEnv 0 (exBlock 1 true true true, [exBlock 0 true false false])
        ⟨[⟨500, [1]⟩, ⟨50, [0]⟩]⟩ ⟨9, 0⟩ 2000 0 true 466 7).ret = true
      ∧ (CheckStakeKernelHash (exEnvWith exHashTime) 0
          (exBlock 1 true true true, [exBlock 0 true false false])
          ⟨[⟨500, [1]⟩, ⟨50, [0]⟩]⟩ ⟨9, 0⟩ 2000 2 false 0 0).hashProofOfStake
        = exHashTime (leBytes 8 7 ++ leBytes 4 1000 ++ leBytes 4 0 ++ leBytes 32 9
            ++ leBytes 4 2001) :=
  ⟨(kernel_hash_input exEnv 0 (exBlock 1 true true true, [exBlock 0 true false false])
      ⟨[⟨500, [1]⟩, ⟨50, [0]⟩]⟩ ⟨9, 0⟩ 2000 0 466 0 7 (by decide) (by decide) (by decide)
      (by decide)).1.2 ⟨by decide, by decide⟩,
    (kernel_hash_input (exEnvWith exHashTime) 0
      (exBlock 1 true true true, [exBlock 0 true false false])
      ⟨[⟨500, [1]⟩, ⟨50, [0]⟩]⟩ ⟨9, 0⟩ 2000 2 0 0 7 (by decide) (by decide) (by decide)
      (by decide)).2.2.1 (by decide) (by decide)⟩

/-- Claim C5. If the staked value is below `MIN_STAKE_AMOUNT`, or the try time is below
the time of the block holding the staked output plus `MinStakeAge`, or below that
time, then `CheckStakeKernelHash` returns false, whatever the proof hash, modifier,
bits and mode. -/
theorem checkStakeKernelHash_ineligible (env : Env) (nBits : Nat)
    (blockFrom : CBlockIndex × List CBlockIndex) (txPrev : CTransaction)
    (prevout : COutPoint) (nTimeTx nHashDrift : Nat) (fCheck : Bool)
    (hashProofOfStake nStakeModifier : Nat)
    (h : (stakedOutput txPrev prevout).nValue < env.MIN_STAKE_AMOUNT
      ∨ (nTimeTx : Int) < (toU32 (GetBlockTime blockFrom.1) : Int) + env.MinStakeAge
      ∨ nTimeTx < toU32 (GetBlockTime blockFrom.1)) :
    (CheckStakeKernelHash env nBits blockFrom txPrev prevout nTimeTx nHashDrift fCheck
        hashProofOfStake nStakeModifier).ret = false := by
  unfold CheckStakeKernelHash
  simp only []
  by_cases h1 : (stakedOutput txPrev prevout).nValue < env.MIN_STAKE_AMOUNT
  · rw [if_pos h1]
  rw [if_neg h1]
  by_cases h2 : nTimeTx < toU32 (GetBlockTime blockFrom.1)
  · rw [if_pos h2]
  rw [if_neg h2]
  by_cases h3 : (toU32 (GetBlockTime blockFrom.1) : Int) + env.MinStakeAge > (nTimeTx : Int)
  · rw [if_pos h3]
  · exfalso
    rcases h with h | h | h
    · exact h1 h
    · exact h3 h
    · exact h2 h

/-- Claim C5 at concrete inputs: a staked value of 50 below the minimum 100, and a try time one second short of the minimum age. -/
theorem checkStakeKernelHash_ineligible_witness :
    (CheckStakeKernelHash exEnv 0 (exBlock 1 true true true, [exBlock 0 true false false])
        ⟨[⟨500, [1]⟩, ⟨50, [0]⟩]⟩ ⟨9, 1⟩ 2000 3 false 0 0).ret = false
      ∧ (CheckStakeKernelHash exEnv 0 (exBlock 1 true true true, [exBlock 0 true false false])
        ⟨[⟨500, [1]⟩, ⟨50, [0]⟩]⟩ ⟨9, 0⟩ 1059 3 true 0 7).ret = false :=
  ⟨checkStakeKernelHash_ineligible exEnv 0
      (exBlock 1 true true true, [exBlock 0 true false false])
      ⟨[⟨500, [1]⟩, ⟨50, [0]⟩]⟩ ⟨9, 1⟩ 2000 3 false 0 0 (Or.inl (by decide)),
    checkStakeKernelHash_ineligible exEnv 0
      (exBlock 1 true true true, [exBlock 0 true false false])
      ⟨[⟨500, [1]⟩, ⟨50, [0]⟩]⟩ ⟨9, 0⟩ 1059 3 true 0 7 (Or.inr (Or.inl (by decide)))⟩

/-- Claim C6 fails as stated: with a staked value of `100 * 2 ^ 56` and a compact
expansion of `2 ^ 200` the product does not fit in 256 bits and the target is
`2 ^ 256 - 1`, yet the check of the proof hash `2 ^ 256 - 1`, which is the recomputed
kernel hash under the right modifier, returns false. -/
theorem stakeTarget_saturated_counterexample :
    2 ^ 256 ≤ toU64 (100 * 2 ^ 56) / 100 * (exEnvWith exHashMax).SetCompact 0
      ∧ stakeTarget (exEnvWith exHashMax) (100 * 2 ^ 56) 0 = 2 ^ 256 - 1
      ∧ ComputeNextStakeModifier (exEnvWith exHashMax)
          [exBlock 1 true true true, exBlock 0 true false false] = (true, 7)
      ∧ kernelHashSpec (exEnvWith exHashMax) 7 1000 ⟨9, 0⟩ 2000 = 2 ^ 256 - 1
      ∧ (CheckStakeKernelHash (exEnvWith exHashMax) 0
          (exBlock 1 true true true, [exBlock 0 true false false])
          ⟨[⟨100 * 2 ^ 56, [1]⟩]⟩ ⟨9, 0⟩ 2000 0 true (2 ^ 256 - 1) 7).ret = false := by
  decide

/-- Claim C6, amended. The stake target is `(value_in / 100) * expand_compact(bits)`
when that product fits in 256 bits, and `2 ^ 256 - 1` when it does not; in the
saturated case a 256-bit proof hash is below the target if and only if it is not
`2 ^ 256 - 1` itself. For a value in the unsigned 64-bit range the first factor is
the integer quotient of the value by 100. -/
theorem stakeTarget_saturates (env : Env) (nValueIn : Int) (nBits : Nat) :
    (toU64 nValueIn / 100 * env.SetCompact nBits < 2 ^ 256 →
        stakeTarget env nValueIn nBits = toU64 nValueIn / 100 * env.SetCompact nBits)
    ∧ (2 ^ 256 ≤ toU64 nValueIn / 100 * env.SetCompact nBits →
        stakeTarget env nValueIn nBits = 2 ^ 256 - 1
        ∧ ∀ h, h < 2 ^ 256 → (h < stakeTarget env nValueIn nBits ↔ h ≠ 2 ^ 256 - 1))
    ∧ (0 ≤ nValueIn → nValueIn < 2 ^ 64 → toU64 nValueIn / 100 = (nValueIn / 100).toNat) := by
  refine ⟨?_, ?_, ?_⟩
  · intro h
    simp only [stakeTarget, arith_uint256_mul, h, if_true]
  · intro h
    have hT : stakeTarget env nValueIn nBits = 2 ^ 256 - 1 := by
      simp only [stakeTarget, arith_uint256_mul, not_lt.2 h, if_false]
    refine ⟨hT, fun x hx => ?_⟩
    rw [hT]
    omega
  · intro h0 h1
    unfold toU64
    rw [Int.emod_eq_of_lt h0 h1]
    omega

/-- Claim C7. For `prev` of positive height whose nearest ancestor with the generated
flag (`prev` included) is `a`: if `a.time / I ≥ prev.time / I` for the modifier
interval `I > 0`, then `ComputeNextStakeModifier` succeeds and returns the stored
modifier of `a`, whatever the block index and hash function are. -/
theorem computeNextStakeModifier_same_slot (env : Env) (prev : CBlockIndex)
    (pprev pre post : List CBlockIndex) (a : CBlockIndex)
    (hheight : 0 < prev.nHeight)
    (hchain : prev :: pprev = pre ++ a :: post)
    (hpre : ∀ b ∈ pre, b.fGeneratedStakeModifier = false)
    (ha : a.fGeneratedStakeModifier = true)
    (_hI : 0 < getIntervalVersion env)
    (hslot : a.nTime / getIntervalVersion env ≥ prev.nTime / getIntervalVersion env) :
    ComputeNextStakeModifier env (prev :: pprev) = (true, a.nStakeModifier) := by
  have hlast := getLastStakeModifier_nearest pre a post hpre ha
  rw [← hchain] at hlast
  have hne : ¬ prev.nHeight = 0 := by omega
  simp only [ComputeNextStakeModifier, hne, if_false, hlast, GetBlockTime, int_tdiv_natCast]
  have : ((prev.nTime / getIntervalVersion env : Nat) : Int)
      ≤ ((a.nTime / getIntervalVersion env : Nat) : Int) := by exact_mod_cast hslot
  simp only [ge_iff_le, this, if_true]

/-- Claim C7 at a concrete input: a block at time 1100 on top of a generated block at time 1000, interval 600. -/
theorem computeNextStakeModifier_same_slot_witness :
    ComputeNextStakeModifier exEnv
      [⟨2, 1100, 3, 9, false, false, false⟩, exBlock 1 true true true,
        exBlock 0 true false false] = (true, 7) :=
  computeNextStakeModifier_same_slot exEnv ⟨2, 1100, 3, 9, false, false, false⟩
    [exBlock 1 true true true, exBlock 0 true false false]
    [⟨2, 1100, 3, 9, false, false, false⟩] [exBlock 0 true false false]
    (exBlock 1 true true true) (by decide) rfl (by decide) rfl (by decide) (by decide)

/-- Claim C8. On the rebuild path, when the `k = min(64, number of candidates)` rounds
select the blocks `s_0, ..., s_(k-1)`, `ComputeNextStakeModifier` returns the sum of
`entropy_bit(s_r) * 2 ^ r` over `r < k`: bit `r` of the result is the entropy bit of
the block selected in round `r`, and every bit at a position `≥ k` is 0. -/
theorem computeNextStakeModifier_bits (env : Env) (prev : CBlockIndex)
    (pprev : List CBlockIndex) (M : Nat) (t : Int) (s : List CBlockIndex)
    (hheight : prev.nHeight ≠ 0)
    (hlast : GetLastStakeModifier (prev :: pprev) = some (M, t))
    (hrebuild : Int.tdiv t (getIntervalVersion env)
      < Int.tdiv (GetBlockTime prev) (getIntervalVersion env))
    (hlen : s.length = min 64
      (sortedCandidates env (selectionIntervalStart env prev) (prev :: pprev)).length)
    (hsel : roundsSelect env
      (sortedCandidates env (selectionIntervalStart env prev) (prev :: pprev)) M s 0
      (selectionIntervalStart env prev) []) :
    ComputeNextStakeModifier env (prev :: pprev)
        = (true, ∑ r in range s.length, (entropyBitAt s r).toNat * 2 ^ r)
      ∧ (∀ r, r < s.length →
          (ComputeNextStakeModifier env (prev :: pprev)).2.testBit r = entropyBitAt s r)
      ∧ (∀ r, s.length ≤ r →
          (ComputeNextStakeModifier env (prev :: pprev)).2.testBit r = false) := by
  have hval : ComputeNextStakeModifier env (prev :: pprev)
      = (true, ∑ r in range s.length, (entropyBitAt s r).toNat * 2 ^ r) := by
    rw [computeNextStakeModifier_rebuild env prev pprev M t hheight hlast hrebuild]
    rw [selectionRounds_iff]
    refine ⟨s, hlen, hsel, ?_⟩
    rw [writeBits_sum s 0 0 (by norm_num) (by rw [hlen]; omega)]
    simp
  refine ⟨hval, ?_, ?_⟩
  · intro r _
    rw [hval]
    exact bits_sum_testBit s r
  · intro r hr
    rw [hval]
    show (∑ j in range s.length, (entropyBitAt s j).toNat * 2 ^ j).testBit r = false
    rw [bits_sum_testBit s r]
    have hnone : s[r]? = none := List.getElem?_eq_none (by omega)
    simp [entropyBitAt, hnone]

/-- Claim C8 at a concrete input: the four rounds on the example chain give the bits 1, 0, 1, 0. -/
theorem computeNextStakeModifier_bits_witness :
    ComputeNextStakeModifier exEnv exChain = (true, 5)
      ∧ (ComputeNextStakeModifier exEnv exChain).2.testBit 2 = true := by
  have h := computeNextStakeModifier_bits exEnv (exBlock 3 false true true)
    [exBlock 2 false false false, exBlock 1 true true true, exBlock 0 true false false]
    7 1000 exChain (by decide) (by decide) (by decide) (by decide)
    (by simp only [roundsSelect, exChain]; decide)
  exact ⟨by decide, by decide⟩

/-- Claim C9. On a chain with pairwise distinct hashes that all resolve in the block
index, with `I > 0`, `ComputeNextStakeModifier` succeeds for a `prev` that is absent,
or has height 0, or has an ancestor (itself included) with the generated flag; on the
rebuild path every one of the `min(64, number of candidates)` rounds selects a block. -/
theorem computeNextStakeModifier_never_fails (env : Env) (chain : List CBlockIndex)
    (_hI : 0 < getIntervalVersion env)
    (hprev : chain = [] ∨ (∃ prev pprev, chain = prev :: pprev ∧ prev.nHeight = 0)
      ∨ ∃ b ∈ chain, b.fGeneratedStakeModifier = true)
    (hnd : (chain.map (fun b => b.hashBlock)).Nodup)
    (hres : chainResolves env chain) :
    (ComputeNextStakeModifier env chain).1 = true
      ∧ ∀ prev pprev M t, chain = prev :: pprev → prev.nHeight ≠ 0 →
          GetLastStakeModifier chain = some (M, t) →
          Int.tdiv t (getIntervalVersion env)
            < Int.tdiv (GetBlockTime prev) (getIntervalVersion env) →
          ∃ s, s.length = min 64
              (sortedCandidates env (selectionIntervalStart env prev) chain).length
            ∧ roundsSelect env (sortedCandidates env (selectionIntervalStart env prev) chain)
                M s 0 (selectionIntervalStart env prev) [] := by
  have hrounds : ∀ prev pprev M, chain = prev :: pprev →
      ∃ m, selectionRounds env (sortedCandidates env (selectionIntervalStart env prev) chain) M
        (min 64 (sortedCandidates env (selectionIntervalStart env prev) chain).length) 0
        (selectionIntervalStart env prev) 0 [] = (true, m) := by
    intro prev pprev M _
    apply selectionRounds_succeeds env _ M _ 0 _ 0 []
      (sortedCandidates_resolve env _ chain hres) (sortedCandidates_nodup env _ chain hnd)
    simp
  constructor
  · cases chain with
    | nil => rfl
    | cons prev pprev =>
      by_cases hh : prev.nHeight = 0
      · simp [ComputeNextStakeModifier, hh]
      · have hflag : ∃ b ∈ prev :: pprev, b.fGeneratedStakeModifier = true := by
          rcases hprev with h | ⟨p, q, h, h0⟩ | h
          · cases h
          · cases h; exact absurd h0 hh
          · exact h
        obtain ⟨⟨M, t⟩, hlast⟩ := getLastStakeModifier_isSome _ hflag
        by_cases hstale : Int.tdiv t (getIntervalVersion env)
            < Int.tdiv (GetBlockTime prev) (getIntervalVersion env)
        · rw [computeNextStakeModifier_rebuild env prev pprev M t hh hlast hstale]
          obtain ⟨m, hm⟩ := hrounds prev pprev M rfl
          rw [hm]
        · simp only [ComputeNextStakeModifier, hh, if_false, hlast, ge_iff_le, not_lt.1 hstale,
            if_true]
  · intro prev pprev M t hc _ _ _
    obtain ⟨m, hm⟩ := hrounds prev pprev M hc
    obtain ⟨s, hs, hr, -⟩ := (selectionRounds_iff _ _ _ _ _ _ _ _ _).1 hm
    exact ⟨s, hs, hr⟩

/-- Claim C9 at a concrete input: the example chain. -/
theorem computeNextStakeModifier_never_fails_witness :
    (ComputeNextStakeModifier exEnv exChain).1 = true :=
  (computeNextStakeModifier_never_fails exEnv exChain (by decide)
    (Or.inr (Or.inr ⟨exBlock 1 true true true, by decide, rfl⟩)) (by decide)
    exChain_resolves).1

/-- Claim C10 fails as stated. The candidates are a proof-of-work block (time 2000)
followed by a proof-of-stake block (time 1000) whose unshifted selection hash exceeds
`2 ^ 224`. The selector returns the proof-of-work block when the traversal stops
before the proof-of-stake block (stop time 500), when the proof-of-stake block is
already selected, and when the proof-of-work block has the smaller selection hash. -/
theorem selector_bias_counterexample :
    (exBlock 2 false false false).fProofOfStake = false
      ∧ (exBlock 1 true true true).fProofOfStake = true
      ∧ (exEnvWith exHashBias).mapBlockIndex 2
          = some (exBlock 1 true true true, [exBlock 0 true false false])
      ∧ 2 ^ 224 < (exEnvWith exHashBias).Hash
          (leBytes 32 (exBlock 1 true true true).hashBlock ++ leBytes 8 7)
      ∧ SelectBlockFromCandidates (exEnvWith exHashBias) [(2000, 3), (1000, 2)] [] 500 7
          = (true, some (exBlock 2 false false false))
      ∧ SelectBlockFromCandidates (exEnvWith exHashBias) [(2000, 3), (1000, 2)]
          [(2, exBlock 1 true true true)] 5000 7 = (true, some (exBlock 2 false false false))
      ∧ SelectBlockFromCandidates (exEnvWith exHashBias) [(2000, 3), (1000, 2)] [] 5000 7
          = (true, some (exBlock 2 false false false)) := by
  decide

/-- Claim C10, amended. When all candidate hashes resolve and hash values are below
`2 ^ 256`: if some candidate that the traversal examines (not already selected, met
before the traversal stops) is proof-of-stake, and every examined proof-of-work
candidate has selection hash at least `2 ^ 224`, then `SelectBlockFromCandidates`
returns a block, that block is proof-of-stake and it is an examined candidate. -/
theorem selector_bias_examined (env : Env) (cands : List (Int × Nat))
    (sel : List (Nat × CBlockIndex)) (stop : Int) (M : Nat)
    (hres : ∀ item ∈ cands, ∃ b anc, env.mapBlockIndex item.2 = some (b, anc))
    (hHash : ∀ bytes, env.Hash bytes < 2 ^ 256)
    (hpos : ∃ q ∈ examined env sel stop cands false, q.fProofOfStake = true)
    (hpow : ∀ q ∈ examined env sel stop cands false, q.fProofOfStake = false →
      2 ^ 224 ≤ selectionHash env q M) :
    ∃ p, SelectBlockFromCandidates env cands sel stop M = (true, some p)
      ∧ p.fProofOfStake = true ∧ p ∈ examined env sel stop cands false := by
  obtain ⟨q, hq, hqpos⟩ := hpos
  have hne : examined env sel stop cands false ≠ [] := List.ne_nil_of_mem hq
  obtain ⟨p, hp, hmem, hmin⟩ := (selectLoop_fresh env sel stop M cands 0 none hres).2 hne
  refine ⟨p, hp, ?_, hmem⟩
  by_contra hpp
  have hpf : p.fProofOfStake = false := by simpa using hpp
  have h1 := hpow p hmem hpf
  have h2 := hmin q hq
  have h3 := selectionHash_pos_lt env hHash q M hqpos
  omega

/-- Claim C10 (amended) at a concrete input: both candidates are examined and the proof-of-stake one is returned. -/
theorem selector_bias_examined_witness :
    SelectBlockFromCandidates (exEnvWith exHashMax) [(2000, 3), (1000, 2)] [] 5000 7
      = (true, some (exBlock 1 true true true)) := by
  obtain ⟨p, hp, hpos, hmem⟩ := selector_bias_examined (exEnvWith exHashMax)
    [(2000, 3), (1000, 2)] [] 5000 7
    (by
      intro item hi
      simp only [List.mem_cons, List.mem_singleton, List.not_mem_nil, or_false] at hi
      rcases hi with rfl | rfl <;> exact ⟨_, _, rfl⟩)
    (fun _ => (by decide : 2 ^ 256 - 1 < 2 ^ 256))
    ⟨exBlock 1 true true true, by decide, rfl⟩ (by decide)
  rw [hp]
  have hex : examined (exEnvWith exHashMax) [] 5000 [(2000, 3), (1000, 2)] false
      = [exBlock 2 false false false, exBlock 1 true true true] := by decide
  rw [hex, List.mem_cons, List.mem_singleton] at hmem
  rcases hmem with rfl | rfl
  · exact absurd hpos (by decide)
  · rfl

/-- Claim C11. Round trip between the two modes: for the same bits, block, staked
output, outpoint and try time, check mode with proof hash `H` and modifier `M` returns
true if and only if search mode at that try time with a drift of 1 succeeds, writes
back proof hash `H` and modifier `M`, and `H` is below the target. The values the
search is entered with (`h0`, `m0`) and the drift passed to check mode do not matter. -/
theorem checkStakeKernelHash_round_trip (env : Env) (nBits : Nat)
    (blockFrom : CBlockIndex × List CBlockIndex) (txPrev : CTransaction)
    (prevout : COutPoint) (nTimeTx nHashDrift H M h0 m0 : Nat) :
    (CheckStakeKernelHash env nBits blockFrom txPrev prevout nTimeTx nHashDrift true H M).ret
        = true ↔
      ((CheckStakeKernelHash env nBits blockFrom txPrev prevout nTimeTx 1 false h0 m0).ret
          = true
        ∧ (CheckStakeKernelHash env nBits blockFrom txPrev prevout nTimeTx 1 false h0
            m0).hashProofOfStake = H
        ∧ (CheckStakeKernelHash env nBits blockFrom txPrev prevout nTimeTx 1 false h0
            m0).nStakeModifier = M
        ∧ H < stakeTarget env (stakedOutput txPrev prevout).nValue nBits) :=
  round_trip env nBits blockFrom txPrev prevout nTimeTx nHashDrift H M h0 m0

/-- Claim C11 at a concrete input: the valid check of the example chain, read as a search of drift 1. -/
theorem checkStakeKernelHash_round_trip_witness :
    (CheckStakeKernelHash exEnv 0 (exBlock 1 true true true, [exBlock 0 true false false])
        ⟨[⟨500, [1]⟩, ⟨50, [0]⟩]⟩ ⟨9, 0⟩ 2000 1 false 0 0).ret = true
      ∧ (CheckStakeKernelHash exEnv 0 (exBlock 1 true true true, [exBlock 0 true false false])
        ⟨[⟨500, [1]⟩, ⟨50, [0]⟩]⟩ ⟨9, 0⟩ 2000 1 false 0 0).hashProofOfStake = 466
      ∧ (CheckStakeKernelHash exEnv 0 (exBlock 1 true true true, [exBlock 0 true false false])
        ⟨[⟨500, [1]⟩, ⟨50, [0]⟩]⟩ ⟨9, 0⟩ 2000 1 false 0 0).nStakeModifier = 7
      ∧ 466 < stakeTarget exEnv 500 0 :=
  (checkStakeKernelHash_round_trip exEnv 0
    (exBlock 1 true true true, [exBlock 0 true false false])
    ⟨[⟨500, [1]⟩, ⟨50, [0]⟩]⟩ ⟨9, 0⟩ 2000 0 466 7 0 0).1 (by decide)

/-- Claim C12 fails as stated. A search with drift 0 entered with modifier 0 returns
false and leaves the modifier 7 computed for the block; a search of drift 2 that finds
nothing does the same and leaves the last attempted hash. -/
theorem checkStakeKernelHash_false_outputs_counterexample :
    CheckStakeKernelHash exEnv 0 (exBlock 1 true true true, [exBlock 0 true false false])
        ⟨[⟨500, [1]⟩, ⟨50, [0]⟩]⟩ ⟨9, 0⟩ 2000 0 false 0 0 = ⟨false, 2000, 0, 7⟩
      ∧ CheckStakeKernelHash (exEnvWith exHashTime) 0
          (exBlock 1 true true true, [exBlock 0 true false false])
          ⟨[⟨500, [1]⟩, ⟨50, [0]⟩]⟩ ⟨9, 0⟩ 2000 2 false 0 0 = ⟨false, 2000, 2 ^ 255, 7⟩ := by
  decide

/-- Claim C12, amended. When `CheckStakeKernelHash` returns false the try time holds its
entry value in both modes; in check mode the proof hash and the modifier are unchanged
too; in search mode either nothing is changed (failure before the loop) or the
modifier holds the required modifier computed for the block and the proof hash is the
last attempted kernel hash (unchanged for a drift of 0). -/
theorem checkStakeKernelHash_false_outputs (env : Env) (nBits : Nat)
    (blockFrom : CBlockIndex × List CBlockIndex) (txPrev : CTransaction)
    (prevout : COutPoint) (nTimeTx nHashDrift : Nat) (fCheck : Bool)
    (hashProofOfStake nStakeModifier : Nat)
    (hfalse : (CheckStakeKernelHash env nBits blockFrom txPrev prevout nTimeTx nHashDrift
      fCheck hashProofOfStake nStakeModifier).ret = false) :
    (CheckStakeKernelHash env nBits blockFrom txPrev prevout nTimeTx nHashDrift fCheck
        hashProofOfStake nStakeModifier).nTimeTx = nTimeTx
    ∧ (fCheck = true →
        CheckStakeKernelHash env nBits blockFrom txPrev prevout nTimeTx nHashDrift fCheck
          hashProofOfStake nStakeModifier
        = ⟨false, nTimeTx, hashProofOfStake, nStakeModifier⟩)
    ∧ (fCheck = false →
        CheckStakeKernelHash env nBits blockFrom txPrev prevout nTimeTx nHashDrift fCheck
            hashProofOfStake nStakeModifier
          = ⟨false, nTimeTx, hashProofOfStake, nStakeModifier⟩
        ∨ ∃ Mreq, ComputeNextStakeModifier env (blockFrom.1 :: blockFrom.2) = (true, Mreq)
            ∧ CheckStakeKernelHash env nBits blockFrom txPrev prevout nTimeTx nHashDrift fCheck
                hashProofOfStake nStakeModifier
              = ⟨false, nTimeTx,
                  if nHashDrift = 0 then hashProofOfStake
                  else kernelHashSpec env Mreq (toU32 (GetBlockTime blockFrom.1)) prevout
                    ((nTimeTx + (nHashDrift - 1)) % 2 ^ 32), Mreq⟩) :=
  false_outputs env nBits blockFrom txPrev prevout nTimeTx nHashDrift fCheck hashProofOfStake
    nStakeModifier hfalse

/-- Claim C12 (amended) at concrete inputs: a failed search of drift 2 and a failed check. -/
theorem checkStakeKernelHash_false_outputs_witness :
    (CheckStakeKernelHash (exEnvWith exHashTime) 0
        (exBlock 1 true true true, [exBlock 0 true false false])
        ⟨[⟨500, [1]⟩, ⟨50, [0]⟩]⟩ ⟨9, 0⟩ 2000 2 false 0 0).nTimeTx = 2000
      ∧ CheckStakeKernelHash exEnv 0 (exBlock 1 true true true, [exBlock 0 true false false])
          ⟨[⟨500, [1]⟩, ⟨50, [0]⟩]⟩ ⟨9, 0⟩ 2000 0 true 467 7 = ⟨false, 2000, 467, 7⟩ :=
  ⟨(checkStakeKernelHash_false_outputs (exEnvWith exHashTime) 0
      (exBlock 1 true true true, [exBlock 0 true false false])
      ⟨[⟨500, [1]⟩, ⟨50, [0]⟩]⟩ ⟨9, 0⟩ 2000 2 false 0 0 (by decide)).1,
    (checkStakeKernelHash_false_outputs exEnv 0
      (exBlock 1 true true true, [exBlock 0 true false false])
      ⟨[⟨500, [1]⟩, ⟨50, [0]⟩]⟩ ⟨9, 0⟩ 2000 0 true 467 7 (by decide)).2.1 rfl⟩

/-- Claim C13 fails as stated. For the interval `2 ^ 32 - 1`, representable as
`unsigned int`, with ratio 3, section 63 has length 68174083, while the quotient over
signed 64-bit integers is the interval itself. -/
theorem section_overflow_counterexample :
    getIntervalVersion (exEnvInterval (2 ^ 32 - 1)) = 2 ^ 32 - 1
      ∧ (1 : Int) ≤ Env.MODIFIER_INTERVAL_RATIO (exEnvInterval (2 ^ 32 - 1))
      ∧ GetStakeModifierSelectionIntervalSection (exEnvInterval (2 ^ 32 - 1)) 63 = 68174083
      ∧ Int.tdiv (((2 ^ 32 - 1 : Nat) : Int) * 63)
          (63 + (63 - 63) * ( Env.MODIFIER_INTERVAL_RATIO (exEnvInterval (2 ^ 32 - 1)) - 1))
        = 4294967295 := by
  decide

/-- Claim C13, amended. For a section `n ≤ 63`, a ratio `R ≥ 1` and an interval `I` with
`I * 63 < 2 ^ 32` and a divisor below `2 ^ 32`, the section length is the integer
quotient `I * 63 / (63 + (63 - n) * (R - 1))`; the divisor is at least 63, hence not
zero, also after conversion to `unsigned int`; and section 63 has length `I`. -/
theorem section_quotient (env : Env) (n : Nat) (hn : n ≤ 63)
    (hR : 1 ≤ Env.MODIFIER_INTERVAL_RATIO env)
    (hI : getIntervalVersion env * 63 < 2 ^ 32)
    (hd : 63 + (63 - (n : Int)) * ( Env.MODIFIER_INTERVAL_RATIO env - 1) < 2 ^ 32) :
    GetStakeModifierSelectionIntervalSection env (n : Int)
        = Int.tdiv ((getIntervalVersion env : Int) * 63)
            (63 + (63 - (n : Int)) * ( Env.MODIFIER_INTERVAL_RATIO env - 1))
      ∧ 63 ≤ 63 + (63 - (n : Int)) * ( Env.MODIFIER_INTERVAL_RATIO env - 1)
      ∧ toU32 (63 + (63 - (n : Int)) * ( Env.MODIFIER_INTERVAL_RATIO env - 1)) ≠ 0
      ∧ GetStakeModifierSelectionIntervalSection env 63 = (getIntervalVersion env : Int) :=
  ⟨(section_eq_quotient env n hn hR hI hd).1,
    (sectionDivisor_bounds ( Env.MODIFIER_INTERVAL_RATIO env) n hn hR).1,
    (section_eq_quotient env n hn hR hI hd).2, section_63 env hI⟩

/-- Claim C13 (amended) at a concrete input: interval 600, ratio 3, section 0. -/
theorem section_quotient_witness :
    GetStakeModifierSelectionIntervalSection exEnv 0 = Int.tdiv (600 * 63) (63 + 63 * 2)
      ∧ GetStakeModifierSelectionIntervalSection exEnv 63 = 600 := by
  have h := section_quotient exEnv 0 (by decide) (by decide) (by decide) (by decide)
  exact ⟨h.1, h.2.2.2⟩

/-- Claim C15. With an absent `prev` (null block index) `ComputeNextStakeModifier`
succeeds and returns the modifier 0, whatever the environment is. -/
theorem computeNextStakeModifier_null (env : Env) :
    ComputeNextStakeModifier env [] = (true, 0) := rfl

/-- Claim C16. For every `prev` of height 0 `ComputeNextStakeModifier` succeeds and
returns `0x1234567887654321`, whatever the time, flags and stored modifier of `prev`,
the rest of the chain and the environment are. -/
theorem computeNextStakeModifier_height_zero (env : Env) (prev : CBlockIndex)
    (pprev : List CBlockIndex) (hheight : prev.nHeight = 0) :
    ComputeNextStakeModifier env (prev :: pprev) = (true, 0x1234567887654321) := by
  simp only [ComputeNextStakeModifier, hheight, if_true]

/-- Claim C16 at concrete inputs: the genesis block of the example chain, and a block of height 0 with other fields and another block behind it. -/
theorem computeNextStakeModifier_height_zero_witness :
    ComputeNextStakeModifier exEnv [exBlock 0 true false false] = (true, 0x1234567887654321)
      ∧ ComputeNextStakeModifier exEnv
          [⟨0, 77, 5, 9, false, true, true⟩, exBlock 3 false true true]
        = (true, 0x1234567887654321) :=
  ⟨computeNextStakeModifier_height_zero exEnv (exBlock 0 true false false) [] rfl,
    computeNextStakeModifier_height_zero exEnv ⟨0, 77, 5, 9, false, true, true⟩
      [exBlock 3 false true true] rfl⟩

/-- Claim C17. When every candidate hash resolves (`cs` are the index entries of the
candidates, in list order) and `j` is the least index at which the stop condition of
the spec holds (`j = n` if there is none), the selector returns the selection of the
spec: nothing exactly when no candidate before `j` is outside the already-selected
set, and otherwise the not-already-selected candidate before `j` whose selection hash
is smallest, the earliest in list order among equal hashes. The selection hash is the
hash of the block hash (32 bytes) followed by the previous modifier (8 bytes,
little-endian), shifted right by 32 bits for a proof-of-stake block; the selector
computes exactly that value. -/
theorem selectBlockFromCandidates_spec (env : Env) (cands : List (Int × Nat))
    (sel : List (Nat × CBlockIndex)) (stop : Int) (M : Nat) (cs : List CBlockIndex) (j : Nat)
    (hres : List.Forall₂ (fun item c => ∃ anc, env.mapBlockIndex item.2 = some (c, anc))
      cands cs)
    (hj : j ≤ cs.length)
    (hleast : ∀ i, i < j → ¬ stopsAt sel stop cs i)
    (hstop : j < cs.length → stopsAt sel stop cs j) :
    SelectBlockFromCandidates env cands sel stop M
        = (match selectSpec env sel M cs j with
          | none => (false, none)
          | some p => (true, some p))
      ∧ (selectSpec env sel M cs j = none ↔ ∀ c ∈ cs.take j, notSelected sel c = false)
      ∧ (∀ p, selectSpec env sel M cs j = some p ↔
          p ∈ (cs.take j).filter (notSelected sel)
          ∧ (∀ a ∈ (cs.take j).filter (notSelected sel),
              selectionHashSpec env p M ≤ selectionHashSpec env a M)
          ∧ ∀ a ∈ (cs.take j).filter (notSelected sel),
              selectionHashSpec env a M ≤ selectionHashSpec env p M →
              List.indexOf p ((cs.take j).filter (notSelected sel))
                ≤ List.indexOf a ((cs.take j).filter (notSelected sel)))
      ∧ ∀ c, selectionHash env c M
          = if c.fProofOfStake = true then
              env.Hash (leBytes 32 c.hashBlock ++ leBytes 8 M) / 2 ^ 32
            else env.Hash (leBytes 32 c.hashBlock ++ leBytes 8 M) := by
  refine ⟨select_eq_spec env cands sel stop M cs j hres hj hleast hstop, ?_, ?_, ?_⟩
  · unfold selectSpec
    rw [List.argmin_eq_none, List.filter_eq_nil_iff]
    simp
  · intro p
    unfold selectSpec
    exact List.argmin_eq_some_iff
  · intro c
    exact selectionHash_eq_spec env c M

/-- Claim C17 at a concrete input. The candidates are the blocks of hash 1, 2, 4, 3 in
that order, none selected, stop time 1500: the traversal stops at index 2 (time 3000),
and of the two examined blocks the second, proof-of-stake, has the smaller selection
hash and is returned, although the block of hash 3 past the stop has a smaller one. -/
theorem selectBlockFromCandidates_spec_witness :
    SelectBlockFromCandidates (exEnvWith exHashBias) [(0, 1), (1000, 2), (3000, 4), (2000, 3)]
        [] 1500 7 = (true, some (exBlock 1 true true true))
      ∧ selectionHash (exEnvWith exHashBias) (exBlock 1 true true true) 7 = 2 ^ 223
      ∧ selectionHash (exEnvWith exHashBias) (exBlock 0 true false false) 7 = 2 ^ 255
      ∧ selectionHash (exEnvWith exHashBias) (exBlock 2 false false false) 7 = 5 := by
  have h := selectBlockFromCandidates_spec (exEnvWith exHashBias)
    [(0, 1), (1000, 2), (3000, 4), (2000, 3)] [] 1500 7
    [exBlock 0 true false false, exBlock 1 true true true, exBlock 3 false true true,
      exBlock 2 false false false] 2
    (List.Forall₂.cons ⟨_, rfl⟩ (List.Forall₂.cons ⟨_, rfl⟩
      (List.Forall₂.cons ⟨_, rfl⟩ (List.Forall₂.cons ⟨_, rfl⟩ List.Forall₂.nil))))
    (by decide)
    (by
      intro i hi hst
      obtain ⟨c, hc, ht, q, hq, -⟩ := hst
      have hi' : i = 0 ∨ i = 1 := by omega
      rcases hi' with rfl | rfl
      · simp at hq
      · simp only [List.getElem?_cons_succ, List.getElem?_cons_zero, Option.some.injEq] at hc
        subst hc
        revert ht
        decide)
    (fun _ => ⟨exBlock 3 false true true, rfl, by decide, exBlock 0 true false false,
      by decide, by decide⟩)
  refine ⟨?_, by decide, by decide, by decide⟩
  rw [h.1]
  decide

/-- Claim C18. On the rebuild path the candidate list handed to the selection rounds,
with the selection start `(prev.time / I) * I - W` and `W` the sum of the 64 section
lengths, is a permutation of the `(time, hash)` pairs of the blocks `prev`,
`prev.prev`, ... up to but excluding the first one whose time is below the start; it
contains `prev`; and it is in descending lexicographic order: descending by time,
equal times in descending hash order, for the order of `uint256`, a strict total order. -/
theorem candidate_list_spec (env : Env) (prev : CBlockIndex) (pprev : List CBlockIndex)
    (M : Nat) (t : Int)
    (htotal : uint256StrictTotal env)
    (hheight : prev.nHeight ≠ 0)
    (hlast : GetLastStakeModifier (prev :: pprev) = some (M, t))
    (hrebuild : Int.tdiv t (getIntervalVersion env)
      < Int.tdiv (GetBlockTime prev) (getIntervalVersion env)) :
    ComputeNextStakeModifier env (prev :: pprev)
        = selectionRounds env
            (sortedCandidates env (selectionIntervalStart env prev) (prev :: pprev)) M
            (min 64
              (sortedCandidates env (selectionIntervalStart env prev) (prev :: pprev)).length)
            0 (selectionIntervalStart env prev) 0 []
      ∧ selectionIntervalStart env prev
          = Int.tdiv (GetBlockTime prev) (getIntervalVersion env) * (getIntervalVersion env)
            - ((List.range 64).map
                (fun n => GetStakeModifierSelectionIntervalSection env (n : Int))).sum
      ∧ (sortedCandidates env (selectionIntervalStart env prev) (prev :: pprev)).Perm
          (((prev :: pprev).takeWhile
              (fun b => decide (GetBlockTime b ≥ selectionIntervalStart env prev))).map
            (fun b => (GetBlockTime b, b.hashBlock)))
      ∧ (GetBlockTime prev, prev.hashBlock)
          ∈ sortedCandidates env (selectionIntervalStart env prev) (prev :: pprev)
      ∧ (sortedCandidates env (selectionIntervalStart env prev) (prev :: pprev)).Pairwise
          (fun a b => b.1 < a.1 ∨ (b.1 = a.1 ∧ env.uint256_lt a.2 b.2 = false)) := by
  refine ⟨computeNextStakeModifier_rebuild env prev pprev M t hheight hlast hrebuild, ?_, ?_,
    prev_mem_sortedCandidates env prev pprev,
    sortedCandidates_descending env htotal _ _⟩
  · unfold selectionIntervalStart
    rw [selectionInterval_eq_sum]
  · rw [← gatherCandidates_eq]
    exact sortedCandidates_perm env _ _

/-- Claim C18 at a concrete input: the four candidates of the example chain, in descending order. -/
theorem candidate_list_spec_witness :
    (3000, 4) ∈ sortedCandidates exEnv
        (selectionIntervalStart exEnv (exBlock 3 false true true)) exChain
      ∧ (sortedCandidates exEnv
          (selectionIntervalStart exEnv (exBlock 3 false true true)) exChain).Pairwise
          (fun a b => b.1 < a.1 ∨ (b.1 = a.1 ∧ exEnv.uint256_lt a.2 b.2 = false))
      ∧ sortedCandidates exEnv
          (selectionIntervalStart exEnv (exBlock 3 false true true)) exChain
        = [(3000, 4), (2000, 3), (1000, 2), (0, 1)] := by
  have h := candidate_list_spec exEnv (exBlock 3 false true true)
    [exBlock 2 false false false, exBlock 1 true true true, exBlock 0 true false false]
    7 1000 exEnv_strictTotal (by decide) (by decide) (by decide)
  exact ⟨h.2.2.2.1, h.2.2.2.2, by decide⟩

/-- Claim C19. `GetLastStakeModifier` is total on a finite chain; it fails on the null
pointer; it succeeds if and only if some block of the chain, the given block included,
has the generated flag; and it returns the modifier and time of the nearest such
block, the first one met walking backwards. -/
theorem getLastStakeModifier_spec (chain : List CBlockIndex) :
    GetLastStakeModifier [] = none
      ∧ ((∃ r, GetLastStakeModifier chain = some r)
          ↔ ∃ c ∈ chain, c.fGeneratedStakeModifier = true)
      ∧ ∀ pre a post, chain = pre ++ a :: post →
          (∀ c ∈ pre, c.fGeneratedStakeModifier = false) →
          a.fGeneratedStakeModifier = true →
          GetLastStakeModifier chain = some (a.nStakeModifier, GetBlockTime a) := by
  refine ⟨rfl, ⟨?_, getLastStakeModifier_isSome chain⟩, ?_⟩
  · rintro ⟨r, hr⟩
    exact getLastStakeModifier_some_flag chain r hr
  · intro pre a post hc hpre ha
    rw [hc]
    exact getLastStakeModifier_nearest pre a post hpre ha

/-- Claim C19 at a concrete input: the nearest generated block of the example chain is the one at height 1. -/
theorem getLastStakeModifier_spec_witness :
    GetLastStakeModifier exChain = some (7, 1000) :=
  (getLastStakeModifier_spec exChain).2.2
    [exBlock 3 false true true, exBlock 2 false false false] (exBlock 1 true true true)
    [exBlock 0 true false false] rfl (by decide) rfl

end PosKernel
